import Mathlib

/-!
# Bitswap decision engine and DHT wire messages

A shallow embedding of `exchange/bitswap/decision/engine.go` (namespace `Bitswap`) and of
`routing/dht/pb/message.go` (namespace `dht_pb`).

The engine is embedded as explicit state passing over `Engine`.  The collaborators
whose code lives in other packages (wantlist, ledger, message, blockstore, the peer
request queue) are either parameters of the operations (blockstore answers, the tasks
handed out by `Pop`) or small models written from the specification, each one marked
as such in its doc comment.
-/

set_option linter.dupNamespace false

namespace Bitswap

/-- Content key of a block (a Go string type). -/
abbrev Key := String

/-- Peer identifier (a Go string type). -/
abbrev PeerID := String

/-- Go error value; `none` in an `Option Error` stands for the nil error. -/
abbrev Error := String

/-- Modelled from the spec: the block type of package `blocks` is missing; a block is
an immutable pair of key and data. -/
structure Block where
  Data : List UInt8
  key : Key
deriving DecidableEq, Repr

/-- Accessor `block.Key()`. -/
def Block.Key (b : Block) : Key := b.key

namespace wl

/-- Modelled from the spec: the stored wantlist entry of package `wantlist` is missing;
an entry is a key with a priority. -/
structure Entry where
  Key : Key
  Priority : Int
deriving DecidableEq, Repr

/-- Modelled from the spec: the wantlist of package `wantlist` is missing; it is a set of
entries keyed by block key, at most one entry per key. -/
structure Wantlist where
  set : List Entry
deriving DecidableEq, Repr

/-- Modelled from the spec: `wl.New()` is missing; it builds the empty wantlist. -/
def New : Wantlist := ⟨[]⟩

/-- Modelled from the spec: `Wantlist.Contains` is missing; `contains(key) → entry?`. -/
def Wantlist.Contains (w : Wantlist) (k : Bitswap.Key) : Option Entry :=
  w.set.find? (fun e => e.Key == k)

/-- Modelled from the spec: `Wantlist.Remove` is missing; `remove(key)` drops the entry
stored for the key, if any. -/
def Wantlist.Remove (w : Wantlist) (k : Bitswap.Key) : Wantlist :=
  ⟨w.set.filter (fun e => !(e.Key == k))⟩

/-- Modelled from the spec: `Wantlist.Add` is missing; `add(key, priority)` is an upsert:
the entry stored for the key afterwards carries the given priority. -/
def Wantlist.Add (w : Wantlist) (k : Bitswap.Key) (priority : Int) : Wantlist :=
  ⟨⟨k, priority⟩ :: w.set.filter (fun e => !(e.Key == k))⟩

/-- Order of `sorted_entries()`: descending priority, ties by ascending key. -/
def entryBefore (a b : Entry) : Bool :=
  decide (b.Priority < a.Priority) || (a.Priority == b.Priority && !decide (b.Key < a.Key))

/-- Modelled from the spec: `Wantlist.SortedEntries` is missing; it enumerates the entries
in descending priority, ties broken by ascending key. -/
def Wantlist.SortedEntries (w : Wantlist) : List Entry :=
  w.set.mergeSort entryBefore

end wl

namespace bsmsg

/-- Modelled from the spec: the wire entry of package `message` is missing; it embeds a
wantlist entry and adds the cancel flag. -/
structure Entry where
  Entry : wl.Entry
  Cancel : Bool
deriving DecidableEq, Repr

/-- Modelled from the spec: the `BitSwapMessage` interface of package `message` is
missing; the fields are the values returned by `Full()`, `Wantlist()` and `Blocks()`. -/
structure BitSwapMessage where
  Full : Bool
  Wantlist : List Entry
  Blocks : List Block
deriving DecidableEq, Repr

end bsmsg

/-- Byte counters of a ledger (`uint64` each). -/
structure debtRatio where
  BytesSent : Nat
  BytesRecv : Nat
deriving DecidableEq, Repr

/-- Modelled from the spec: the ledger type of `ledger.go` is missing; it holds the
partner, the byte counters and the partner's wantlist (the creation timestamp is left
out). -/
structure ledger where
  Partner : PeerID
  Accounting : debtRatio
  wantList : wl.Wantlist
deriving DecidableEq, Repr

/-- Modelled from the spec: `newLedger` is missing; a fresh ledger has an empty wantlist
and zero counters. -/
def newLedger (p : PeerID) : ledger :=
  { Partner := p, Accounting := ⟨0, 0⟩, wantList := wl.New }

/-- Modelled from the spec: `ledger.Wants` is missing; `l.wantlist.add(key, priority)`. -/
def ledger.Wants (l : ledger) (k : Key) (priority : Int) : ledger :=
  { l with wantList := l.wantList.Add k priority }

/-- Modelled from the spec: `ledger.CancelWant` is missing; `l.wantlist.remove(key)`. -/
def ledger.CancelWant (l : ledger) (k : Key) : ledger :=
  { l with wantList := l.wantList.Remove k }

/-- Modelled from the spec: `ledger.WantListContains` is missing; the stored entry, if
any. -/
def ledger.WantListContains (l : ledger) (k : Key) : Option wl.Entry :=
  l.wantList.Contains k

/-- Modelled from the spec: `ledger.SentBytes` is missing; it adds `n` to the `uint64`
counter of sent bytes (Go unsigned addition wraps). -/
def ledger.SentBytes (l : ledger) (n : Nat) : ledger :=
  { l with Accounting := { l.Accounting with BytesSent := (l.Accounting.BytesSent + n) % 2 ^ 64 } }

/-- Modelled from the spec: `ledger.ReceivedBytes` is missing; it adds `n` to the `uint64`
counter of received bytes (Go unsigned addition wraps). -/
def ledger.ReceivedBytes (l : ledger) (n : Nat) : ledger :=
  { l with Accounting := { l.Accounting with BytesRecv := (l.Accounting.BytesRecv + n) % 2 ^ 64 } }

/-- The blockstore consumed by the engine: the answers of `Has` (value and error) and of
`Get` at the time of one engine call. -/
structure Blockstore where
  Has : Key → Bool × Option Error
  Get : Key → Except Error Block

/-- Modelled from the spec: the task type of `peer_request_queue.go` is missing; a task
is a target peer, the wanted entry and the trash flag. -/
structure peerRequestTask where
  Entry : wl.Entry
  Target : PeerID
  trash : Bool
deriving DecidableEq, Repr

/-- A call made on the peer request queue, with its arguments (for `Pop`, its result). -/
inductive PRQCall where
  | Push (entry : wl.Entry) (target : PeerID)
  | Remove (k : Key) (p : PeerID)
  | Pop (result : Option peerRequestTask)
  | Done (t : peerRequestTask)
deriving DecidableEq, Repr

/-- The engine state.  `peerRequestQueue` records the calls made on the queue, oldest
first; `workSignal` is the number of signals buffered in the channel of capacity one;
`ledgerMap` is the map from peer to ledger, in insertion order. -/
structure Engine where
  peerRequestQueue : List PRQCall
  workSignal : Nat
  ledgerMap : List (PeerID × ledger)
deriving DecidableEq, Repr

/-- The engine built by `NewEngine`. -/
def NewEngine : Engine :=
  { peerRequestQueue := [], workSignal := 0, ledgerMap := [] }

/-- The non-blocking send on `workSignal`: it succeeds only when the buffer of the
channel (capacity one) has room. -/
def Engine.signalNewWork (e : Engine) : Engine :=
  if e.workSignal < 1 then { e with workSignal := e.workSignal + 1 } else e

/-- Lazily instantiates a ledger: the ledger of `p` and the engine afterwards. -/
def Engine.findOrCreate (e : Engine) (p : PeerID) : ledger × Engine :=
  match e.ledgerMap.lookup p with
  | some l => (l, e)
  | none => (newLedger p, { e with ledgerMap := e.ledgerMap ++ [(p, newLedger p)] })

/-- Writes back the ledger that the pointer stored under `p` designates. -/
def Engine.setLedger (e : Engine) (p : PeerID) (l : ledger) : Engine :=
  { e with ledgerMap := e.ledgerMap.map (fun x => if x.1 == p then (x.1, l) else x) }

/-- State of the loop over `m.Wantlist()`: the peer's ledger, the queue calls so far and
`newWorkExists`. -/
structure RecvState where
  l : ledger
  queue : List PRQCall
  newWorkExists : Bool
deriving DecidableEq, Repr

/-- One iteration of the loop over `m.Wantlist()` in `MessageReceived`. -/
def wantlistStep (bs : Blockstore) (p : PeerID) (s : RecvState) (entry : bsmsg.Entry) :
    RecvState :=
  if entry.Cancel then
    { s with l := s.l.CancelWant entry.Entry.Key,
             queue := s.queue ++ [PRQCall.Remove entry.Entry.Key p] }
  else
    let l := s.l.Wants entry.Entry.Key entry.Entry.Priority
    if (bs.Has entry.Entry.Key).2 == none && (bs.Has entry.Entry.Key).1 then
      { l := l, queue := s.queue ++ [PRQCall.Push entry.Entry p], newWorkExists := true }
    else
      { s with l := l }

/-- The operation `MessageReceived(p, m)`: the returned error and the engine afterwards. -/
def Engine.MessageReceived (e : Engine) (bs : Blockstore) (p : PeerID)
    (m : bsmsg.BitSwapMessage) : Option Error × Engine :=
  let (l, e1) := e.findOrCreate p
  let l1 := if m.Full then { l with wantList := wl.New } else l
  let s := m.Wantlist.foldl (wantlistStep bs p) ⟨l1, e1.peerRequestQueue, false⟩
  let l2 := m.Blocks.foldl (fun l block => l.ReceivedBytes block.Data.length) s.l
  let e2 := ({ e1 with peerRequestQueue := s.queue }).setLedger p l2
  (none, if s.newWorkExists then e2.signalNewWork else e2)

/-- State of the loop over the ledgers in `addBlock`: the queue calls so far and `work`. -/
structure AddState where
  queue : List PRQCall
  work : Bool
deriving DecidableEq, Repr

/-- One iteration of the loop over `e.ledgerMap` in `addBlock`. -/
def addBlockStep (block : Block) (s : AddState) (x : PeerID × ledger) : AddState :=
  match x.2.WantListContains block.Key with
  | some entry => { queue := s.queue ++ [PRQCall.Push entry x.2.Partner], work := true }
  | none => s

/-- The operation `addBlock(block)`; the map is iterated in insertion order. -/
def Engine.addBlock (e : Engine) (block : Block) : Engine :=
  let s := e.ledgerMap.foldl (addBlockStep block) ⟨e.peerRequestQueue, false⟩
  let e1 := { e with peerRequestQueue := s.queue }
  if s.work then e1.signalNewWork else e1

/-- The operation `AddBlock(block)`. -/
def Engine.AddBlock (e : Engine) (block : Block) : Engine :=
  e.addBlock block

/-- State of the loop over `m.Blocks()` in `MessageSent`. -/
structure SentState where
  l : ledger
  queue : List PRQCall
deriving DecidableEq, Repr

/-- One iteration of the loop over `m.Blocks()` in `MessageSent`. -/
def sentStep (p : PeerID) (s : SentState) (block : Block) : SentState :=
  let l1 := s.l.SentBytes block.Data.length
  { l := { l1 with wantList := l1.wantList.Remove block.Key },
    queue := s.queue ++ [PRQCall.Remove block.Key p] }

/-- The operation `MessageSent(p, m)`: the returned error and the engine afterwards. -/
def Engine.MessageSent (e : Engine) (p : PeerID) (m : bsmsg.BitSwapMessage) :
    Option Error × Engine :=
  let (l, e1) := e.findOrCreate p
  let s := m.Blocks.foldl (sentStep p) ⟨l, e1.peerRequestQueue⟩
  (none, ({ e1 with peerRequestQueue := s.queue }).setLedger p s.l)

/-- The operation `PeerDisconnected(p)`: the body is empty. -/
def Engine.PeerDisconnected (e : Engine) (_p : PeerID) : Engine := e

/-- The operation `WantlistForPeer(p)`: the result and the engine afterwards. -/
def Engine.WantlistForPeer (e : Engine) (p : PeerID) : List wl.Entry × Engine :=
  match e.ledgerMap.lookup p with
  | some partner => (partner.wantList.SortedEntries, e)
  | none => ([], e)

/-- The operation `Peers()`: the result and the engine afterwards. -/
def Engine.Peers (e : Engine) : List PeerID × Engine :=
  (e.ledgerMap.foldl (fun response x => response ++ [x.2.Partner]) [], e)

/-- The accessor `numBytesSentTo(p)`: the result and the engine afterwards. -/
def Engine.numBytesSentTo (e : Engine) (p : PeerID) : Nat × Engine :=
  ((e.findOrCreate p).1.Accounting.BytesSent, (e.findOrCreate p).2)

/-- The accessor `numBytesReceivedFrom(p)`: the result and the engine afterwards. -/
def Engine.numBytesReceivedFrom (e : Engine) (p : PeerID) : Nat × Engine :=
  ((e.findOrCreate p).1.Accounting.BytesRecv, (e.findOrCreate p).2)

/-- An envelope: the recipient, the payload and the completion callback, which acts on
the engine state. -/
structure Envelope where
  Peer : PeerID
  Block : Block
  Sent : Engine → Engine

/-- What the worker observes at one `Pop`: a task, or an empty queue followed by the
branch the `select` takes (the work signal arrives, or the context is cancelled). -/
inductive PopStep where
  | task (t : peerRequestTask)
  | emptyThenSignal
  | emptyThenCancel
deriving DecidableEq, Repr

/-- How a run of `nextEnvelope` ends: with an envelope, with the error of the cancelled
context, or still waiting because the observations ran out. -/
inductive Outcome where
  | envelope (env : Envelope)
  | cancelled (err : Error)
  | waiting

/-- The callback `Sent` of the envelope built for `nextTask`: `Done` on the task, then a
non-blocking send on `workSignal`. -/
def sentCallback (nextTask : peerRequestTask) (e : Engine) : Engine :=
  let e1 := { e with peerRequestQueue := e.peerRequestQueue ++ [PRQCall.Done nextTask] }
  if e1.workSignal < 1 then { e1 with workSignal := e1.workSignal + 1 } else e1

/-- The function `nextEnvelope`, run against the observations of its successive `Pop`
calls: the outcome and the engine afterwards. -/
def Engine.nextEnvelope (bs : Blockstore) : Engine → List PopStep → Outcome × Engine
  | e, [] => (Outcome.waiting, e)
  | e, PopStep.emptyThenCancel :: _ =>
    (Outcome.cancelled "context canceled",
      { e with peerRequestQueue := e.peerRequestQueue ++ [PRQCall.Pop none] })
  | e, PopStep.emptyThenSignal :: rest =>
    Engine.nextEnvelope bs
      { e with peerRequestQueue := e.peerRequestQueue ++ [PRQCall.Pop none],
               workSignal := e.workSignal - 1 } rest
  | e, PopStep.task nextTask :: rest =>
    let e1 := { e with peerRequestQueue := e.peerRequestQueue ++ [PRQCall.Pop (some nextTask)] }
    match bs.Get nextTask.Entry.Key with
    | Except.error _ =>
      Engine.nextEnvelope bs
        { e1 with peerRequestQueue := e1.peerRequestQueue ++ [PRQCall.Done nextTask] } rest
    | Except.ok block =>
      (Outcome.envelope { Peer := nextTask.Target, Block := block, Sent := sentCallback nextTask },
        e1)

/-- Modelled from the spec: the queue of `peer_request_queue.go` is missing; an element of
the queue is a task together with its active mark. -/
structure prqElem where
  task : peerRequestTask
  active : Bool
deriving DecidableEq, Repr

/-- Whether a queue element is the task of `(p, k)`. -/
def prqElem.isFor (x : prqElem) (p : PeerID) (k : Key) : Bool :=
  x.task.Target == p && x.task.Entry.Key == k

/-- Modelled from the spec: the queue operations of `peer_request_queue.go` are missing.
`Push` updates the priority of the existing task of `(peer, key)` or inserts a fresh
task; `Pop` marks the task it hands out active; `Remove` deletes a task that is not
active and marks an active one as trash; `Done` retires the active task. -/
def prqStep (s : List prqElem) : PRQCall → List prqElem
  | PRQCall.Push entry p =>
    if s.any (fun x => x.isFor p entry.Key) then
      s.map (fun x => if x.isFor p entry.Key then { x with task := { x.task with Entry := entry } }
        else x)
    else s ++ [⟨⟨entry, p, false⟩, false⟩]
  | PRQCall.Remove k p =>
    s.filterMap (fun x =>
      if x.isFor p k then
        (if x.active then some { x with task := { x.task with trash := true } } else none)
      else some x)
  | PRQCall.Pop none => s
  | PRQCall.Pop (some t) =>
    s.map (fun x => if x.isFor t.Target t.Entry.Key then { x with active := true } else x)
  | PRQCall.Done t =>
    s.filter (fun x => !(x.isFor t.Target t.Entry.Key && x.active))

/-- The queue contents after the recorded calls, starting from the empty queue. -/
def prqReplay (calls : List PRQCall) : List prqElem :=
  calls.foldl prqStep []

/-- Whether the queue holds a live task for `(p, k)`: one that is present and is not
trash. -/
def prqHasLiveTask (s : List prqElem) (p : PeerID) (k : Key) : Bool :=
  s.any (fun x => x.isFor p k && !x.task.trash)

/-- The last entry of a wire wantlist that names the key `k`. -/
def lastEntryFor (k : Key) (entries : List bsmsg.Entry) : Option bsmsg.Entry :=
  entries.reverse.find? (fun en => en.Entry.Key == k)

/-- The wantlist stored for peer `p`, when `p` has a ledger. -/
def Engine.wantlistOf (e : Engine) (p : PeerID) : Option wl.Wantlist :=
  (e.ledgerMap.lookup p).map (fun l => l.wantList)

/-- The queue call that one wire entry causes, if any: `Remove` for a cancel, `Push` for a
want that the blockstore reports present without error. -/
def recvCall (bs : Blockstore) (p : PeerID) (entry : bsmsg.Entry) : Option PRQCall :=
  if entry.Cancel then some (PRQCall.Remove entry.Entry.Key p)
  else if (bs.Has entry.Entry.Key).2 == none && (bs.Has entry.Entry.Key).1 then
    some (PRQCall.Push entry.Entry p)
  else none

/-- Whether a wire entry is pushed: a want that the blockstore reports present without
error. -/
def recvPushes (bs : Blockstore) (entry : bsmsg.Entry) : Bool :=
  !entry.Cancel && ((bs.Has entry.Entry.Key).2 == none && (bs.Has entry.Entry.Key).1)

/-- The ledger of the sender after `MessageReceived`, from the ledger `l` that
`findOrCreate` returned and the queue calls `q` recorded so far. -/
def recvLedger (bs : Blockstore) (p : PeerID) (m : bsmsg.BitSwapMessage) (l : ledger)
    (q : List PRQCall) : ledger :=
  m.Blocks.foldl (fun l block => l.ReceivedBytes block.Data.length)
    (m.Wantlist.foldl (wantlistStep bs p)
      ⟨if m.Full then { l with wantList := wl.New } else l, q, false⟩).l

/-! ## Sample values -/

/-- A blockstore that holds one block, stored under the key "a". -/
def storeA : Blockstore :=
  { Has := fun k => (k == "a", none),
    Get := fun k => if k == "a" then Except.ok ⟨[1], "a"⟩ else Except.error "not found" }

/-- A blockstore whose `Has` fails with an error for the key "a" (while reporting true)
and holds the key "c". -/
def storeFailing : Blockstore :=
  { Has := fun k => if k == "a" then (true, some "io error") else (k == "c", none),
    Get := fun _ => Except.error "io error" }

/-- A full message that wants "a" with priority 1. -/
def msgWantA : bsmsg.BitSwapMessage := ⟨true, [⟨⟨"a", 1⟩, false⟩], []⟩

/-- A message, not full, that wants "a" with priority 1 and then "c" with priority 2. -/
def msgWantAC : bsmsg.BitSwapMessage := ⟨false, [⟨⟨"a", 1⟩, false⟩, ⟨⟨"c", 2⟩, false⟩], []⟩

/-- A full message that wants "b" with priority 2. -/
def msgWantB : bsmsg.BitSwapMessage := ⟨true, [⟨⟨"b", 2⟩, false⟩], []⟩

/-- A message, not full, that cancels "a". -/
def msgCancelA : bsmsg.BitSwapMessage := ⟨false, [⟨⟨"a", 0⟩, true⟩], []⟩

/-- The queue call that `addBlock` makes for one ledger, if any: a `Push` of the stored
entry to the ledger's partner when the wantlist contains the key. -/
def addBlockCall (k : Key) (x : PeerID × ledger) : Option PRQCall :=
  match x.2.wantList.Contains k with
  | some entry => some (PRQCall.Push entry x.2.Partner)
  | none => none

/-! ## Sequences of engine calls -/

/-- One call on the engine: `MessageReceived` (with the blockstore as it answers during
the call), `MessageSent` or `AddBlock`. -/
inductive Op where
  | received (bs : Blockstore) (p : PeerID) (m : bsmsg.BitSwapMessage)
  | sent (p : PeerID) (m : bsmsg.BitSwapMessage)
  | addBlock (block : Block)

/-- The engine after one call. -/
def Engine.step (e : Engine) : Op → Engine
  | Op.received bs p m => (e.MessageReceived bs p m).2
  | Op.sent p m => (e.MessageSent p m).2
  | Op.addBlock block => e.AddBlock block

/-- The engine after a sequence of calls, oldest first. -/
def Engine.run (e : Engine) (ops : List Op) : Engine :=
  ops.foldl Engine.step e

/-- Total length of the data of the blocks of a message. -/
def blockBytes (m : bsmsg.BitSwapMessage) : Nat :=
  (m.Blocks.map (fun b => b.Data.length)).sum

/-- Total bytes of the blocks of all messages passed to `MessageSent` for peer `p`. -/
def sentTotal (p : PeerID) : List Op → Nat
  | [] => 0
  | Op.sent q m :: rest => (if q = p then blockBytes m else 0) + sentTotal p rest
  | _ :: rest => sentTotal p rest

/-- Total bytes of the blocks of all messages passed to `MessageReceived` for peer `p`. -/
def recvTotal (p : PeerID) : List Op → Nat
  | [] => 0
  | Op.received _ q m :: rest => (if q = p then blockBytes m else 0) + recvTotal p rest
  | _ :: rest => recvTotal p rest

/-- The byte counters recorded for peer `p`; zero when `p` has no ledger. -/
def Engine.accountingOf (e : Engine) (p : PeerID) : debtRatio :=
  match e.ledgerMap.lookup p with
  | some l => l.Accounting
  | none => ⟨0, 0⟩

/-- The peer ids present in the ledger map, in insertion order. -/
def Engine.peerIds (e : Engine) : List PeerID :=
  e.ledgerMap.map Prod.fst

/-- The peer id that a call on behalf of `p` adds to the ledger map: `p` itself when it
has no ledger yet, nothing otherwise. -/
def Engine.newPeer (e : Engine) (p : PeerID) : List PeerID :=
  if (e.ledgerMap.lookup p).isSome then [] else [p]

/-! ## Observations of the worker -/

/-- Whether an observation makes `nextEnvelope` go round its loop once more: a task whose
`Get` fails, or an empty queue followed by the work signal. -/
def PopStep.retries (bs : Blockstore) : PopStep → Bool
  | PopStep.task t =>
    match bs.Get t.Entry.Key with
    | Except.error _ => true
    | Except.ok _ => false
  | PopStep.emptyThenSignal => true
  | PopStep.emptyThenCancel => false

/-- The queue calls that `nextEnvelope` makes on an observation that sends it round its
loop: `Pop` and then `Done` on a task, a lone `Pop` on an empty queue. -/
def PopStep.retryCalls : PopStep → List PRQCall
  | PopStep.task t => [PRQCall.Pop (some t), PRQCall.Done t]
  | _ => [PRQCall.Pop none]

/-- A task for peer P1 and key "a" whose trash flag is set. -/
def trashedTaskA : peerRequestTask := ⟨⟨"a", 1⟩, "P1", true⟩

/-- A task for peer P2 and the key "z", which `storeA` does not hold. -/
def taskZ : peerRequestTask := ⟨⟨"z", 3⟩, "P2", false⟩

/-- A task for peer P1 and key "a", which `storeA` holds. -/
def taskA : peerRequestTask := ⟨⟨"a", 1⟩, "P1", false⟩

/-! ## Queue and ledger consistency -/

/-- Whether a call is not a full resync: every call except `MessageReceived` with a full
message. -/
def Op.noResync : Op → Bool
  | Op.received _ _ m => !m.Full
  | _ => true

/-- Every ledger is stored under its partner and no peer id occurs twice in the map. -/
def Engine.wellKeyed (e : Engine) : Prop :=
  (e.ledgerMap.map Prod.fst).Nodup ∧ ∀ x ∈ e.ledgerMap, x.2.Partner = x.1

/-- Queue and ledger consistency: every live task of the replayed queue is for a key that
the wantlist of its target peer contains. -/
def Engine.consistent (e : Engine) : Prop :=
  ∀ p k, prqHasLiveTask (prqReplay e.peerRequestQueue) p k = true →
    ∃ l, e.ledgerMap.lookup p = some l ∧ (l.wantList.Contains k).isSome = true

/-! ## The work signal -/

/-- Whether a recorded queue call is a `Push`. -/
def PRQCall.isPush : PRQCall → Bool
  | PRQCall.Push _ _ => true
  | _ => false

/-- The receive `<-e.workSignal` of the worker: ready only when a signal is buffered, and
then it takes that signal out of the channel; `none` when the receive is not ready. -/
def Engine.receiveWorkSignal (e : Engine) : Option Engine :=
  if 0 < e.workSignal then some { e with workSignal := e.workSignal - 1 } else none

/-- A message with no wantlist entry and no block. -/
def msgEmpty : bsmsg.BitSwapMessage := ⟨false, [], []⟩

end Bitswap

/-! # DHT wire messages

A shallow embedding of `routing/dht/pb/message.go`. -/

namespace dht_pb

/-- Go error value; `none` in an `Option Error` stands for the nil error. -/
abbrev Error := String

/-- The Go conversion `int32(x)`: the value wrapped into the range of `int32`. -/
def toInt32 (x : Int) : Int :=
  (x + 2 ^ 31) % 2 ^ 32 - 2 ^ 31

/-- Modelled from the spec: the generated type `Message` of `message.pb.go` is missing and
the spec leaves the wire types to it; the fields are the ones `message.go` reads and
writes, each a pointer (`none` is nil); `Typ` is the field `Type`. -/
structure Message where
  Typ : Option Int
  Key : Option String
  ClusterLevelRaw : Option Int
deriving DecidableEq, Repr

/-- Modelled from the spec: the generated getter of `message.pb.go` is missing; as the
comment on `GetClusterLevel` says, a raw level without value reads as the protobuf
default 0, and a set one reads as its value. -/
def Message.GetClusterLevelRaw (m : Message) : Int :=
  match m.ClusterLevelRaw with
  | some v => v
  | none => 0

/-- The method `GetClusterLevel`: the raw level minus one in `int32`, and 0 when that is
negative. -/
def Message.GetClusterLevel (m : Message) : Int :=
  let level := toInt32 (m.GetClusterLevelRaw - 1)
  if level < 0 then 0 else level

/-- The method `SetClusterLevel`: it stores `int32(level)` as the raw level. -/
def Message.SetClusterLevel (m : Message) (level : Int) : Message :=
  { m with ClusterLevelRaw := some (toInt32 level) }

/-- The constructor `NewMessage(typ, key, level)`. -/
def NewMessage (typ : Int) (key : String) (level : Int) : Message :=
  Message.SetClusterLevel { Typ := some typ, Key := some key, ClusterLevelRaw := none } level

/-- A multiaddr of the external multiaddr package, held as its bytes. -/
structure Multiaddr where
  bytes : List UInt8
deriving DecidableEq, Repr

/-- The external decoder `ma.NewMultiaddrBytes`: the returned interface value (`none` is
nil) and the returned error. -/
abbrev Decoder := List UInt8 → Option Multiaddr × Option Error

/-- Modelled from the spec: the generated type `Message_Peer` of `message.pb.go` is missing
and the spec leaves the wire types to it; the fields are the ones `message.go` reads and
writes. -/
structure Message_Peer where
  Id : Option String
  Addrs : List (List UInt8)
  Connection : Option Int
deriving DecidableEq, Repr

/-- Modelled from the spec: the generated getter `GetId` of `message.pb.go` is missing; the
id of the peer, and the empty string for a nil peer or a nil id. -/
def Message_Peer.GetId (m : Option Message_Peer) : String :=
  match m with
  | some mp =>
    match mp.Id with
    | some s => s
    | none => ""
  | none => ""

/-- The peer record of the external peer package: an id and a slice of multiaddrs, whose
elements may be nil. -/
structure PeerInfo where
  ID : String
  Addrs : List (Option Multiaddr)
deriving DecidableEq, Repr

/-- One iteration of the loop of `Addresses`: the result of the decoder is stored at
index `i`, and on an error the loop moves on to the next address. -/
def addressesStep (dec : Decoder) (maddrs : List (Option Multiaddr))
    (x : Nat × List UInt8) : List (Option Multiaddr) :=
  let r := dec x.2
  let maddrs1 := maddrs.set x.1 r.1
  if r.2 != none then maddrs1 else maddrs1

/-- The method `Addresses`: nil for a nil peer; otherwise a slice made with the length of
`m.Addrs` and filled index by index. -/
def Message_Peer.Addresses (dec : Decoder) (m : Option Message_Peer) :
    List (Option Multiaddr) :=
  match m with
  | none => []
  | some mp => mp.Addrs.enum.foldl (addressesStep dec) (List.replicate mp.Addrs.length none)

/-- The function `PBPeerToPeerInfo`. -/
def PBPeerToPeerInfo (dec : Decoder) (pbp : Option Message_Peer) : PeerInfo :=
  { ID := Message_Peer.GetId pbp, Addrs := Message_Peer.Addresses dec pbp }

/-- The function `PBPeersToPeerInfos`. -/
def PBPeersToPeerInfos (dec : Decoder) (pbps : List (Option Message_Peer)) : List PeerInfo :=
  pbps.foldl (fun peers pbp => peers ++ [PBPeerToPeerInfo dec pbp]) []

/-- A decoder that accepts exactly the five-byte addresses that start with the byte 4 and
returns nil with an error for every other input. -/
def sampleDecoder : Decoder := fun b =>
  if b.length = 5 ∧ b.head? = some 4 then (some ⟨b⟩, none) else (none, some "invalid multiaddr")

/-- A peer with one address that `sampleDecoder` accepts followed by one it rejects. -/
def samplePeer : Message_Peer :=
  { Id := some "QmPeer", Addrs := [[4, 127, 0, 0, 1], [255]], Connection := none }

end dht_pb

namespace Bitswap

/-! ## Wantlist and ledger map lemmas -/

theorem wl_Contains_New (k : Key) : wl.New.Contains k = none := rfl

theorem find_filter_ne (s : List wl.Entry) (k k' : Key) (h : k' ≠ k) :
    (s.filter (fun e => !(e.Key == k))).find? (fun e => e.Key == k') =
      s.find? (fun e => e.Key == k') := by
  induction s with
  | nil => rfl
  | cons a t ih =>
    cases hk : (a.Key == k) with
    | true =>
      have hk' : (a.Key == k') = false := by
        have h1 : a.Key = k := by simpa using hk
        simp only [beq_eq_false_iff_ne]
        exact fun h2 => h (h2.symm.trans h1)
      simp only [List.filter_cons, List.find?_cons, hk, hk', Bool.not_true]
      exact ih
    | false =>
      cases hk' : (a.Key == k') with
      | true => simp only [List.filter_cons, List.find?_cons, hk, hk', Bool.not_false, if_true]
      | false =>
        simp only [List.filter_cons, List.find?_cons, hk, hk', Bool.not_false, if_true]
        exact ih

theorem find_filter_eq (s : List wl.Entry) (k : Key) :
    (s.filter (fun e => !(e.Key == k))).find? (fun e => e.Key == k) = none := by
  simp [List.find?_eq_none, List.mem_filter]

theorem wl_Contains_Add (w : wl.Wantlist) (k : Key) (pr : Int) (k' : Key) :
    (w.Add k pr).Contains k' = if k' = k then some ⟨k, pr⟩ else w.Contains k' := by
  unfold wl.Wantlist.Add wl.Wantlist.Contains
  by_cases h : k' = k
  · subst h; simp [List.find?_cons]
  · have h2 : (k == k') = false := by
      simp only [beq_eq_false_iff_ne]; exact fun x => h x.symm
    simp only [List.find?_cons, h2, if_neg h]
    exact find_filter_ne _ _ _ h

theorem wl_Contains_Remove (w : wl.Wantlist) (k k' : Key) :
    (w.Remove k).Contains k' = if k' = k then none else w.Contains k' := by
  unfold wl.Wantlist.Remove wl.Wantlist.Contains
  by_cases h : k' = k
  · subst h; simp [find_filter_eq]
  · simp only [if_neg h]; exact find_filter_ne _ _ _ h

theorem lookup_append_single (m : List (PeerID × ledger)) (p q : PeerID) (l : ledger) :
    (m ++ [(p, l)]).lookup q =
      match m.lookup q with
      | some x => some x
      | none => if q = p then some l else none := by
  induction m with
  | nil =>
    by_cases h : q = p
    · subst h; simp [List.lookup]
    · have hb : (q == p) = false := by simpa using h
      simp only [List.nil_append, List.lookup, hb, if_neg h]
  | cons a t ih =>
    obtain ⟨a1, a2⟩ := a
    cases hb : (q == a1) with
    | true => simp only [List.cons_append, List.lookup, hb]
    | false => simp only [List.cons_append, List.lookup, hb]; exact ih

theorem lookup_map_set (m : List (PeerID × ledger)) (p q : PeerID) (l : ledger) :
    (m.map (fun x => if x.1 == p then (x.1, l) else x)).lookup q =
      if q = p then (m.lookup p).map (fun _ => l) else m.lookup q := by
  induction m with
  | nil => simp [List.lookup]
  | cons a t ih =>
    obtain ⟨a1, a2⟩ := a
    by_cases h3 : a1 = p
    · have hb3 : (a1 == p) = true := by simpa using h3
      simp only [List.map_cons, hb3, if_true]
      by_cases h : q = p
      · have hb : (q == a1) = true := by simp [h, h3]
        have hb4 : (p == a1) = true := by simp [h3]
        simp only [List.lookup, hb, hb4, if_pos h, Option.map_some']
      · have hb : (q == a1) = false := by
          simp only [beq_eq_false_iff_ne]; exact fun x => h (x.trans h3)
        simp only [List.lookup, hb, if_neg h]
        rw [ih, if_neg h]
    · have hb3 : (a1 == p) = false := by simpa using h3
      simp only [List.map_cons, hb3, Bool.false_eq_true, if_false]
      by_cases h : q = p
      · have hb : (q == a1) = false := by
          simp only [beq_eq_false_iff_ne]; exact fun x => h3 (x.symm.trans h)
        have hb4 : (p == a1) = false := by
          simp only [beq_eq_false_iff_ne]; exact fun x => h3 x.symm
        simp only [List.lookup, hb, hb4, if_pos h]
        rw [ih, if_pos h]
      · simp only [if_neg h]
        cases hb : (q == a1) with
        | true => simp only [List.lookup, hb]
        | false =>
          simp only [List.lookup, hb]
          rw [ih, if_neg h]

/-! ## The loop over the wire wantlist -/

theorem lastEntryFor_nil (k : Key) : lastEntryFor k [] = none := rfl

theorem lastEntryFor_cons (k : Key) (a : bsmsg.Entry) (es : List bsmsg.Entry) :
    lastEntryFor k (a :: es) =
      match lastEntryFor k es with
      | some x => some x
      | none => if a.Entry.Key = k then some a else none := by
  unfold lastEntryFor
  rw [List.reverse_cons, List.find?_append]
  cases h : List.find? (fun en => en.Entry.Key == k) es.reverse with
  | some x => rfl
  | none =>
    by_cases hk : a.Entry.Key = k
    · simp [hk]
    · simp [hk]

theorem lastEntryFor_append_single (k : Key) (a : bsmsg.Entry) (es : List bsmsg.Entry) :
    lastEntryFor k (es ++ [a]) = if a.Entry.Key = k then some a else lastEntryFor k es := by
  unfold lastEntryFor
  by_cases hk : a.Entry.Key = k
  · simp [hk]
  · simp [hk]

theorem wantlistStep_Contains (bs : Blockstore) (p : PeerID) (s : RecvState)
    (a : bsmsg.Entry) (k : Key) :
    (wantlistStep bs p s a).l.wantList.Contains k =
      if a.Entry.Key = k then (if a.Cancel then none else some a.Entry)
      else s.l.wantList.Contains k := by
  have hne : ∀ x y : Key, (x = y) = (y = x) := fun x y => propext ⟨Eq.symm, Eq.symm⟩
  unfold wantlistStep
  by_cases hc : a.Cancel = true
  · simp only [hc, if_true, ledger.CancelWant, wl_Contains_Remove, hne k]
  · simp only [hc, Bool.false_eq_true, if_false]
    split
    · simp only [ledger.Wants, wl_Contains_Add, hne k]
    · simp only [ledger.Wants, wl_Contains_Add, hne k]

theorem foldl_wantlistStep_Contains (bs : Blockstore) (p : PeerID) (es : List bsmsg.Entry)
    (s : RecvState) (k : Key) :
    (es.foldl (wantlistStep bs p) s).l.wantList.Contains k =
      match lastEntryFor k es with
      | some en => if en.Cancel then none else some en.Entry
      | none => s.l.wantList.Contains k := by
  induction es generalizing s with
  | nil => rfl
  | cons a t ih =>
    rw [List.foldl_cons, ih, lastEntryFor_cons]
    cases h : lastEntryFor k t with
    | some x => rfl
    | none =>
      simp only [wantlistStep_Contains]
      by_cases hk : a.Entry.Key = k
      · simp only [if_pos hk]
      · simp only [if_neg hk]

theorem wantlistStep_frame (bs : Blockstore) (p : PeerID) (s : RecvState) (a : bsmsg.Entry) :
    (wantlistStep bs p s a).l.Partner = s.l.Partner ∧
      (wantlistStep bs p s a).l.Accounting = s.l.Accounting := by
  unfold wantlistStep
  split
  · exact ⟨rfl, rfl⟩
  · simp only []
    split <;> exact ⟨rfl, rfl⟩

theorem foldl_wantlistStep_frame (bs : Blockstore) (p : PeerID) (es : List bsmsg.Entry)
    (s : RecvState) :
    (es.foldl (wantlistStep bs p) s).l.Partner = s.l.Partner ∧
      (es.foldl (wantlistStep bs p) s).l.Accounting = s.l.Accounting := by
  induction es generalizing s with
  | nil => exact ⟨rfl, rfl⟩
  | cons a t ih =>
    rw [List.foldl_cons]
    exact ⟨(ih _).1.trans (wantlistStep_frame bs p s a).1,
      (ih _).2.trans (wantlistStep_frame bs p s a).2⟩

theorem wantlistStep_queue (bs : Blockstore) (p : PeerID) (s : RecvState) (a : bsmsg.Entry) :
    (wantlistStep bs p s a).queue = s.queue ++ (recvCall bs p a).toList ∧
      (wantlistStep bs p s a).newWorkExists = (s.newWorkExists || recvPushes bs a) := by
  unfold wantlistStep recvCall recvPushes
  by_cases hc : a.Cancel = true
  · simp [hc]
  · by_cases hh : ((bs.Has a.Entry.Key).2 == none && (bs.Has a.Entry.Key).1) = true
    · simp only [hc, hh, Bool.false_eq_true, if_false, if_true, Option.toList]
      simp
    · simp only [hc, hh, Bool.false_eq_true, if_false, Option.toList]
      simp [hh]

theorem foldl_wantlistStep_queue (bs : Blockstore) (p : PeerID) (es : List bsmsg.Entry)
    (s : RecvState) :
    (es.foldl (wantlistStep bs p) s).queue = s.queue ++ es.filterMap (recvCall bs p) ∧
      (es.foldl (wantlistStep bs p) s).newWorkExists =
        (s.newWorkExists || es.any (recvPushes bs)) := by
  induction es generalizing s with
  | nil => simp
  | cons a t ih =>
    rw [List.foldl_cons]
    refine ⟨?_, ?_⟩
    · rw [(ih _).1, (wantlistStep_queue bs p s a).1, List.filterMap_cons]
      cases recvCall bs p a <;> simp [Option.toList]
    · rw [(ih _).2, (wantlistStep_queue bs p s a).2, List.any_cons, Bool.or_assoc]

theorem foldl_wantlistStep_ledger_indep (bs bs' : Blockstore) (p : PeerID)
    (es : List bsmsg.Entry) (s s' : RecvState) (h : s.l = s'.l) :
    (es.foldl (wantlistStep bs p) s).l = (es.foldl (wantlistStep bs' p) s').l := by
  induction es generalizing s s' with
  | nil => exact h
  | cons a t ih =>
    rw [List.foldl_cons, List.foldl_cons]
    apply ih
    unfold wantlistStep
    by_cases hc : a.Cancel = true
    · simp only [hc, if_true, h]
    · simp only [hc, Bool.false_eq_true, if_false]
      split <;> split <;> simp only [h]

theorem foldl_ReceivedBytes_frame (bl : List Block) (l : ledger) :
    (bl.foldl (fun l block => l.ReceivedBytes block.Data.length) l).Partner = l.Partner ∧
      (bl.foldl (fun l block => l.ReceivedBytes block.Data.length) l).wantList = l.wantList ∧
      (bl.foldl (fun l block => l.ReceivedBytes block.Data.length) l).Accounting.BytesSent =
        l.Accounting.BytesSent := by
  induction bl generalizing l with
  | nil => exact ⟨rfl, rfl, rfl⟩
  | cons a t ih =>
    rw [List.foldl_cons]
    exact ⟨(ih _).1, (ih _).2.1, (ih _).2.2⟩

/-! ## Ledger map lemmas for the engine operations -/

theorem findOrCreate_fst (e : Engine) (p : PeerID) :
    (e.findOrCreate p).1 = (e.ledgerMap.lookup p).getD (newLedger p) := by
  unfold Engine.findOrCreate
  cases e.ledgerMap.lookup p <;> rfl

theorem findOrCreate_lookup (e : Engine) (p : PeerID) :
    (e.findOrCreate p).2.ledgerMap.lookup p = some (e.findOrCreate p).1 := by
  unfold Engine.findOrCreate
  cases h : e.ledgerMap.lookup p with
  | some l => exact h
  | none =>
    show (e.ledgerMap ++ [(p, newLedger p)]).lookup p = some (newLedger p)
    rw [lookup_append_single, h]
    simp

theorem findOrCreate_lookup_ne (e : Engine) (p q : PeerID) (h : q ≠ p) :
    (e.findOrCreate p).2.ledgerMap.lookup q = e.ledgerMap.lookup q := by
  unfold Engine.findOrCreate
  cases h1 : e.ledgerMap.lookup p with
  | some l => rfl
  | none =>
    show (e.ledgerMap ++ [(p, newLedger p)]).lookup q = e.ledgerMap.lookup q
    rw [lookup_append_single]
    cases e.ledgerMap.lookup q with
    | some x => rfl
    | none => simp [h]

theorem findOrCreate_queue (e : Engine) (p : PeerID) :
    (e.findOrCreate p).2.peerRequestQueue = e.peerRequestQueue ∧
      (e.findOrCreate p).2.workSignal = e.workSignal := by
  unfold Engine.findOrCreate
  cases e.ledgerMap.lookup p <;> exact ⟨rfl, rfl⟩

theorem setLedger_lookup (e : Engine) (p q : PeerID) (l : ledger) :
    (e.setLedger p l).ledgerMap.lookup q =
      if q = p then (e.ledgerMap.lookup p).map (fun _ => l) else e.ledgerMap.lookup q :=
  lookup_map_set e.ledgerMap p q l

theorem signalNewWork_frame (e : Engine) :
    e.signalNewWork.ledgerMap = e.ledgerMap ∧
      e.signalNewWork.peerRequestQueue = e.peerRequestQueue := by
  unfold Engine.signalNewWork
  split <;> exact ⟨rfl, rfl⟩

theorem ite_signalNewWork_frame (b : Bool) (e : Engine) :
    (if b = true then e.signalNewWork else e).ledgerMap = e.ledgerMap ∧
      (if b = true then e.signalNewWork else e).peerRequestQueue = e.peerRequestQueue := by
  cases b
  · exact ⟨rfl, rfl⟩
  · exact signalNewWork_frame e

theorem MessageReceived_lookup (e : Engine) (bs : Blockstore) (p : PeerID)
    (m : bsmsg.BitSwapMessage) (q : PeerID) :
    (e.MessageReceived bs p m).2.ledgerMap.lookup q =
      if q = p then
        some (recvLedger bs p m (e.findOrCreate p).1 (e.findOrCreate p).2.peerRequestQueue)
      else e.ledgerMap.lookup q := by
  have h : (e.MessageReceived bs p m).2.ledgerMap =
      ((e.findOrCreate p).2.setLedger p
        (recvLedger bs p m (e.findOrCreate p).1 (e.findOrCreate p).2.peerRequestQueue)).ledgerMap := by
    simp only [Engine.MessageReceived, recvLedger]
    rw [(ite_signalNewWork_frame _ _).1]
    rfl
  rw [h, setLedger_lookup]
  by_cases hq : q = p
  · simp only [if_pos hq, findOrCreate_lookup, Option.map_some']
  · simp only [if_neg hq, findOrCreate_lookup_ne e p q hq]

theorem MessageReceived_queue (e : Engine) (bs : Blockstore) (p : PeerID)
    (m : bsmsg.BitSwapMessage) :
    (e.MessageReceived bs p m).2.peerRequestQueue =
      e.peerRequestQueue ++ m.Wantlist.filterMap (recvCall bs p) := by
  have h : (e.MessageReceived bs p m).2.peerRequestQueue =
      (m.Wantlist.foldl (wantlistStep bs p)
        ⟨if m.Full then { (e.findOrCreate p).1 with wantList := wl.New }
          else (e.findOrCreate p).1, (e.findOrCreate p).2.peerRequestQueue, false⟩).queue := by
    simp only [Engine.MessageReceived]
    rw [(ite_signalNewWork_frame _ _).2]
    rfl
  rw [h, (foldl_wantlistStep_queue bs p _ _).1, (findOrCreate_queue e p).1]

theorem recvLedger_Contains (bs : Blockstore) (p : PeerID) (m : bsmsg.BitSwapMessage)
    (l : ledger) (q : List PRQCall) (k : Key) :
    (recvLedger bs p m l q).wantList.Contains k =
      match lastEntryFor k m.Wantlist with
      | some en => if en.Cancel then none else some en.Entry
      | none => if m.Full then none else l.wantList.Contains k := by
  unfold recvLedger
  rw [(foldl_ReceivedBytes_frame _ _).2.1, foldl_wantlistStep_Contains]
  cases lastEntryFor k m.Wantlist with
  | some en => rfl
  | none =>
    cases m.Full <;> rfl

/-! ## The loops of `addBlock` and `MessageSent` -/

theorem foldl_addBlockStep (block : Block) (lm : List (PeerID × ledger)) (s : AddState) :
    (lm.foldl (addBlockStep block) s).queue = s.queue ++ lm.filterMap (addBlockCall block.Key) ∧
      (lm.foldl (addBlockStep block) s).work =
        (s.work || !(lm.filterMap (addBlockCall block.Key)).isEmpty) := by
  induction lm generalizing s with
  | nil => simp
  | cons a t ih =>
    rw [List.foldl_cons, (ih _).1, (ih _).2, List.filterMap_cons]
    unfold addBlockStep addBlockCall ledger.WantListContains
    cases h : a.2.wantList.Contains block.Key with
    | some entry => simp
    | none => simp

theorem foldl_sentStep_queue (p : PeerID) (bl : List Block) (s : SentState) :
    (bl.foldl (sentStep p) s).queue = s.queue ++ bl.map (fun b => PRQCall.Remove b.Key p) := by
  induction bl generalizing s with
  | nil => simp
  | cons a t ih =>
    rw [List.foldl_cons, ih]
    simp [sentStep]

theorem foldl_sentStep_Contains (p : PeerID) (bl : List Block) (s : SentState) (k : Key) :
    (bl.foldl (sentStep p) s).l.wantList.Contains k =
      if k ∈ bl.map Block.Key then none else s.l.wantList.Contains k := by
  induction bl generalizing s with
  | nil => simp
  | cons a t ih =>
    rw [List.foldl_cons, ih]
    by_cases h1 : k ∈ t.map Block.Key
    · have h2 : k ∈ (a :: t).map Block.Key := by
        rw [List.map_cons]; exact List.mem_cons_of_mem _ h1
      rw [if_pos h1, if_pos h2]
    · rw [if_neg h1]
      simp only [sentStep, ledger.SentBytes, wl_Contains_Remove]
      by_cases h3 : k = a.Key
      · have h2 : k ∈ (a :: t).map Block.Key := by
          rw [List.map_cons, h3]; exact List.mem_cons_self _ _
        rw [if_pos h3, if_pos h2]
      · have h2 : ¬ k ∈ (a :: t).map Block.Key := by
          rw [List.map_cons, List.mem_cons]
          exact fun h => h.elim h3 h1
        rw [if_neg h3, if_neg h2]

theorem MessageSent_lookup (e : Engine) (p : PeerID) (m : bsmsg.BitSwapMessage) (q : PeerID) :
    (e.MessageSent p m).2.ledgerMap.lookup q =
      if q = p then
        some (m.Blocks.foldl (sentStep p)
          ⟨(e.findOrCreate p).1, (e.findOrCreate p).2.peerRequestQueue⟩).l
      else e.ledgerMap.lookup q := by
  have h : (e.MessageSent p m).2.ledgerMap =
      ((e.findOrCreate p).2.setLedger p (m.Blocks.foldl (sentStep p)
          ⟨(e.findOrCreate p).1, (e.findOrCreate p).2.peerRequestQueue⟩).l).ledgerMap := rfl
  rw [h, setLedger_lookup]
  by_cases hq : q = p
  · simp only [if_pos hq, findOrCreate_lookup, Option.map_some']
  · simp only [if_neg hq, findOrCreate_lookup_ne e p q hq]

theorem MessageSent_queue (e : Engine) (p : PeerID) (m : bsmsg.BitSwapMessage) :
    (e.MessageSent p m).2.peerRequestQueue =
      e.peerRequestQueue ++ m.Blocks.map (fun b => PRQCall.Remove b.Key p) := by
  have h : (e.MessageSent p m).2.peerRequestQueue =
      (m.Blocks.foldl (sentStep p)
          ⟨(e.findOrCreate p).1, (e.findOrCreate p).2.peerRequestQueue⟩).queue := rfl
  rw [h, foldl_sentStep_queue, (findOrCreate_queue e p).1]

/-! ## Byte counters -/

theorem foldl_ReceivedBytes_recv (bl : List Block) (l : ledger)
    (h : l.Accounting.BytesRecv < 2 ^ 64) :
    (bl.foldl (fun l block => l.ReceivedBytes block.Data.length) l).Accounting.BytesRecv =
      (l.Accounting.BytesRecv + (bl.map (fun b => b.Data.length)).sum) % 2 ^ 64 := by
  induction bl generalizing l with
  | nil =>
    show l.Accounting.BytesRecv = (l.Accounting.BytesRecv + 0) % 2 ^ 64
    rw [Nat.add_zero, Nat.mod_eq_of_lt h]
  | cons a t ih =>
    rw [List.foldl_cons, ih _ (Nat.mod_lt _ (by decide))]
    simp only [ledger.ReceivedBytes, List.map_cons, List.sum_cons]
    rw [Nat.mod_add_mod, Nat.add_assoc]

theorem foldl_sentStep_sent (p : PeerID) (bl : List Block) (s : SentState)
    (h : s.l.Accounting.BytesSent < 2 ^ 64) :
    (bl.foldl (sentStep p) s).l.Accounting.BytesSent =
      (s.l.Accounting.BytesSent + (bl.map (fun b => b.Data.length)).sum) % 2 ^ 64 ∧
    (bl.foldl (sentStep p) s).l.Accounting.BytesRecv = s.l.Accounting.BytesRecv := by
  induction bl generalizing s with
  | nil =>
    refine ⟨?_, rfl⟩
    show s.l.Accounting.BytesSent = (s.l.Accounting.BytesSent + 0) % 2 ^ 64
    rw [Nat.add_zero, Nat.mod_eq_of_lt h]
  | cons a t ih =>
    rw [List.foldl_cons]
    have h1 : (sentStep p s a).l.Accounting.BytesSent < 2 ^ 64 :=
      Nat.mod_lt _ (by decide)
    refine ⟨?_, ?_⟩
    · rw [(ih _ h1).1]
      simp only [sentStep, ledger.SentBytes, List.map_cons, List.sum_cons]
      rw [Nat.mod_add_mod, Nat.add_assoc]
    · rw [(ih _ h1).2]
      rfl

theorem accountingOf_findOrCreate (e : Engine) (p : PeerID) :
    (e.findOrCreate p).1.Accounting = e.accountingOf p := by
  rw [findOrCreate_fst]
  unfold Engine.accountingOf
  cases e.ledgerMap.lookup p <;> rfl

theorem recvLedger_Accounting (bs : Blockstore) (p : PeerID) (m : bsmsg.BitSwapMessage)
    (l : ledger) (q : List PRQCall) (h : l.Accounting.BytesRecv < 2 ^ 64) :
    (recvLedger bs p m l q).Accounting.BytesSent = l.Accounting.BytesSent ∧
      (recvLedger bs p m l q).Accounting.BytesRecv =
        (l.Accounting.BytesRecv + blockBytes m) % 2 ^ 64 := by
  unfold recvLedger blockBytes
  have hA : (m.Wantlist.foldl (wantlistStep bs p)
      ⟨if m.Full then { l with wantList := wl.New } else l, q, false⟩).l.Accounting =
      l.Accounting := by
    rw [(foldl_wantlistStep_frame bs p _ _).2]
    cases m.Full <;> rfl
  refine ⟨?_, ?_⟩
  · rw [(foldl_ReceivedBytes_frame _ _).2.2, hA]
  · rw [foldl_ReceivedBytes_recv _ _ (by rw [hA]; exact h), hA]

theorem step_accountingOf (e : Engine) (op : Op) (p : PeerID)
    (h : (e.accountingOf p).BytesSent < 2 ^ 64 ∧ (e.accountingOf p).BytesRecv < 2 ^ 64) :
    ((e.step op).accountingOf p).BytesSent =
        ((e.accountingOf p).BytesSent + sentTotal p [op]) % 2 ^ 64 ∧
      ((e.step op).accountingOf p).BytesRecv =
        ((e.accountingOf p).BytesRecv + recvTotal p [op]) % 2 ^ 64 := by
  cases op with
  | received bs q m =>
    simp only [Engine.step, sentTotal, recvTotal, Nat.add_zero]
    by_cases hq : q = p
    · subst hq
      have hl : (e.MessageReceived bs q m).2.accountingOf q =
          (recvLedger bs q m (e.findOrCreate q).1
            (e.findOrCreate q).2.peerRequestQueue).Accounting := by
        unfold Engine.accountingOf
        rw [MessageReceived_lookup, if_pos rfl]
      have hr := recvLedger_Accounting bs q m (e.findOrCreate q).1
        (e.findOrCreate q).2.peerRequestQueue (by rw [accountingOf_findOrCreate]; exact h.2)
      rw [hl, hr.1, hr.2, accountingOf_findOrCreate, if_pos rfl, Nat.mod_eq_of_lt h.1]
      exact ⟨rfl, rfl⟩
    · have hl : (e.MessageReceived bs q m).2.accountingOf p = e.accountingOf p := by
        unfold Engine.accountingOf
        rw [MessageReceived_lookup, if_neg (fun x => hq x.symm)]
      rw [hl, if_neg hq, Nat.add_zero, Nat.mod_eq_of_lt h.1, Nat.mod_eq_of_lt h.2]
      exact ⟨rfl, rfl⟩
  | sent q m =>
    simp only [Engine.step, sentTotal, recvTotal, Nat.add_zero]
    by_cases hq : q = p
    · subst hq
      have hl : (e.MessageSent q m).2.accountingOf q =
          (m.Blocks.foldl (sentStep q)
            ⟨(e.findOrCreate q).1, (e.findOrCreate q).2.peerRequestQueue⟩).l.Accounting := by
        unfold Engine.accountingOf
        rw [MessageSent_lookup, if_pos rfl]
      have hr := foldl_sentStep_sent q m.Blocks
        ⟨(e.findOrCreate q).1, (e.findOrCreate q).2.peerRequestQueue⟩
        (by rw [accountingOf_findOrCreate]; exact h.1)
      rw [hl, hr.1, hr.2, accountingOf_findOrCreate, if_pos rfl, Nat.mod_eq_of_lt h.2]
      exact ⟨rfl, rfl⟩
    · have hl : (e.MessageSent q m).2.accountingOf p = e.accountingOf p := by
        unfold Engine.accountingOf
        rw [MessageSent_lookup, if_neg (fun x => hq x.symm)]
      rw [hl, if_neg hq, Nat.add_zero, Nat.mod_eq_of_lt h.1, Nat.mod_eq_of_lt h.2]
      exact ⟨rfl, rfl⟩
  | addBlock block =>
    simp only [Engine.step, sentTotal, recvTotal, Nat.add_zero]
    have hl : (e.AddBlock block).accountingOf p = e.accountingOf p := by
      unfold Engine.accountingOf Engine.AddBlock Engine.addBlock
      simp only []
      rw [(ite_signalNewWork_frame _ _).1]
    rw [hl, Nat.mod_eq_of_lt h.1, Nat.mod_eq_of_lt h.2]
    exact ⟨rfl, rfl⟩

theorem sentTotal_cons (p : PeerID) (op : Op) (ops : List Op) :
    sentTotal p (op :: ops) = sentTotal p [op] + sentTotal p ops := by
  cases op <;> simp [sentTotal]

theorem recvTotal_cons (p : PeerID) (op : Op) (ops : List Op) :
    recvTotal p (op :: ops) = recvTotal p [op] + recvTotal p ops := by
  cases op <;> simp [recvTotal]

theorem run_accountingOf (ops : List Op) (e : Engine) (p : PeerID)
    (h : (e.accountingOf p).BytesSent < 2 ^ 64 ∧ (e.accountingOf p).BytesRecv < 2 ^ 64) :
    ((e.run ops).accountingOf p).BytesSent =
        ((e.accountingOf p).BytesSent + sentTotal p ops) % 2 ^ 64 ∧
      ((e.run ops).accountingOf p).BytesRecv =
        ((e.accountingOf p).BytesRecv + recvTotal p ops) % 2 ^ 64 := by
  induction ops generalizing e with
  | nil =>
    show (e.accountingOf p).BytesSent = ((e.accountingOf p).BytesSent + 0) % 2 ^ 64 ∧
      (e.accountingOf p).BytesRecv = ((e.accountingOf p).BytesRecv + 0) % 2 ^ 64
    rw [Nat.add_zero, Nat.add_zero, Nat.mod_eq_of_lt h.1, Nat.mod_eq_of_lt h.2]
    exact ⟨rfl, rfl⟩
  | cons op t ih =>
    have hs := step_accountingOf e op p h
    have hb : ((e.step op).accountingOf p).BytesSent < 2 ^ 64 ∧
        ((e.step op).accountingOf p).BytesRecv < 2 ^ 64 := by
      rw [hs.1, hs.2]
      exact ⟨Nat.mod_lt _ (by decide), Nat.mod_lt _ (by decide)⟩
    have := ih (e.step op) hb
    simp only [Engine.run, List.foldl_cons] at this ⊢
    rw [this.1, this.2, hs.1, hs.2, sentTotal_cons p op t, recvTotal_cons p op t,
      Nat.mod_add_mod, Nat.mod_add_mod, Nat.add_assoc, Nat.add_assoc]
    exact ⟨rfl, rfl⟩

/-! ## The key set of the ledger map -/

theorem findOrCreate_peerIds (e : Engine) (p : PeerID) :
    (e.findOrCreate p).2.peerIds = e.peerIds ++ e.newPeer p := by
  unfold Engine.findOrCreate Engine.peerIds Engine.newPeer
  cases h : e.ledgerMap.lookup p with
  | some l => simp
  | none => simp

theorem setLedger_peerIds (e : Engine) (p : PeerID) (l : ledger) :
    (e.setLedger p l).peerIds = e.peerIds := by
  unfold Engine.setLedger Engine.peerIds
  simp only [List.map_map]
  apply List.map_congr_left
  intro x _
  simp only [Function.comp]
  split <;> rfl

theorem MessageReceived_peerIds (e : Engine) (bs : Blockstore) (p : PeerID)
    (m : bsmsg.BitSwapMessage) :
    (e.MessageReceived bs p m).2.peerIds = e.peerIds ++ e.newPeer p := by
  have h : (e.MessageReceived bs p m).2.ledgerMap =
      ((e.findOrCreate p).2.setLedger p
        (recvLedger bs p m (e.findOrCreate p).1 (e.findOrCreate p).2.peerRequestQueue)).ledgerMap := by
    simp only [Engine.MessageReceived, recvLedger]
    rw [(ite_signalNewWork_frame _ _).1]
    rfl
  have h2 := setLedger_peerIds (e.findOrCreate p).2 p
    (recvLedger bs p m (e.findOrCreate p).1 (e.findOrCreate p).2.peerRequestQueue)
  unfold Engine.peerIds at h2 ⊢
  rw [h, h2]
  exact findOrCreate_peerIds e p

theorem MessageSent_peerIds (e : Engine) (p : PeerID) (m : bsmsg.BitSwapMessage) :
    (e.MessageSent p m).2.peerIds = e.peerIds ++ e.newPeer p := by
  have h : (e.MessageSent p m).2.ledgerMap =
      ((e.findOrCreate p).2.setLedger p (m.Blocks.foldl (sentStep p)
          ⟨(e.findOrCreate p).1, (e.findOrCreate p).2.peerRequestQueue⟩).l).ledgerMap := rfl
  have h2 := setLedger_peerIds (e.findOrCreate p).2 p (m.Blocks.foldl (sentStep p)
          ⟨(e.findOrCreate p).1, (e.findOrCreate p).2.peerRequestQueue⟩).l
  unfold Engine.peerIds at h2 ⊢
  rw [h, h2]
  exact findOrCreate_peerIds e p

theorem AddBlock_ledgerMap (e : Engine) (block : Block) :
    (e.AddBlock block).ledgerMap = e.ledgerMap := by
  unfold Engine.AddBlock Engine.addBlock
  simp only []
  rw [(ite_signalNewWork_frame _ _).1]

/-! ## Live tasks of the replayed queue -/

theorem prqReplay_append (a b : List PRQCall) :
    prqReplay (a ++ b) = b.foldl prqStep (prqReplay a) := by
  unfold prqReplay
  rw [List.foldl_append]

theorem prqReplay_snoc (a : List PRQCall) (c : PRQCall) :
    prqReplay (a ++ [c]) = prqStep (prqReplay a) c := by
  rw [prqReplay_append]
  rfl

theorem isFor_iff (x : prqElem) (p : PeerID) (k : Key) :
    x.isFor p k = true ↔ x.task.Target = p ∧ x.task.Entry.Key = k := by
  unfold prqElem.isFor
  simp

theorem hasLive_iff (s : List prqElem) (p : PeerID) (k : Key) :
    prqHasLiveTask s p k = true ↔
      ∃ x ∈ s, (x.task.Target = p ∧ x.task.Entry.Key = k) ∧ x.task.trash = false := by
  unfold prqHasLiveTask
  simp [List.any_eq_true, isFor_iff]

theorem hasLive_push (s : List prqElem) (en : wl.Entry) (p q : PeerID) (k : Key)
    (h : prqHasLiveTask (prqStep s (PRQCall.Push en p)) q k = true) :
    prqHasLiveTask s q k = true ∨ (q = p ∧ k = en.Key) := by
  rw [hasLive_iff] at h
  obtain ⟨y, hy, ⟨hq, hk⟩, ht⟩ := h
  simp only [prqStep] at hy
  split at hy
  · rw [List.mem_map] at hy
    obtain ⟨x, hx, hxy⟩ := hy
    by_cases hf : x.isFor p en.Key = true
    · rw [if_pos hf] at hxy
      subst hxy
      right
      exact ⟨hq.symm.trans ((isFor_iff _ _ _).1 hf).1, hk.symm⟩
    · rw [if_neg hf] at hxy
      subst hxy
      left
      exact (hasLive_iff _ _ _).2 ⟨x, hx, ⟨hq, hk⟩, ht⟩
  · rw [List.mem_append, List.mem_singleton] at hy
    cases hy with
    | inl hx => left; exact (hasLive_iff _ _ _).2 ⟨y, hx, ⟨hq, hk⟩, ht⟩
    | inr hx =>
      subst hx
      right
      exact ⟨hq.symm, hk.symm⟩

theorem hasLive_remove (s : List prqElem) (k' : Key) (p' q : PeerID) (k : Key)
    (h : prqHasLiveTask (prqStep s (PRQCall.Remove k' p')) q k = true) :
    prqHasLiveTask s q k = true ∧ ¬ (q = p' ∧ k = k') := by
  rw [hasLive_iff] at h
  obtain ⟨y, hy, ⟨hq, hk⟩, ht⟩ := h
  simp only [prqStep] at hy
  rw [List.mem_filterMap] at hy
  obtain ⟨x, hx, hxy⟩ := hy
  by_cases hf : x.isFor p' k' = true
  · rw [if_pos hf] at hxy
    by_cases ha : x.active = true
    · rw [if_pos ha] at hxy
      have := Option.some.inj hxy
      subst this
      simp at ht
    · rw [if_neg ha] at hxy
      cases hxy
  · rw [if_neg hf] at hxy
    have := Option.some.inj hxy
    subst this
    refine ⟨(hasLive_iff _ _ _).2 ⟨x, hx, ⟨hq, hk⟩, ht⟩, ?_⟩
    intro hc
    apply hf
    rw [isFor_iff]
    exact ⟨hq.trans hc.1, hk.trans hc.2⟩

/-! ## Consistency is kept by every call that is not a full resync -/

theorem wantlistStep_consistent (bs : Blockstore) (p : PeerID) (s0 : List prqElem)
    (st : RecvState) (a : bsmsg.Entry)
    (hJ : ∀ k, prqHasLiveTask (prqReplay st.queue) p k = true →
      (st.l.wantList.Contains k).isSome = true)
    (hF : ∀ q k, q ≠ p → prqHasLiveTask (prqReplay st.queue) q k = true →
      prqHasLiveTask s0 q k = true) :
    (∀ k, prqHasLiveTask (prqReplay (wantlistStep bs p st a).queue) p k = true →
      ((wantlistStep bs p st a).l.wantList.Contains k).isSome = true) ∧
    (∀ q k, q ≠ p → prqHasLiveTask (prqReplay (wantlistStep bs p st a).queue) q k = true →
      prqHasLiveTask s0 q k = true) := by
  have hC := wantlistStep_Contains bs p st a
  have hQ := (wantlistStep_queue bs p st a).1
  unfold recvCall at hQ
  by_cases hc : a.Cancel = true
  · simp only [hc, if_true, Option.toList] at hQ hC
    rw [hQ]
    simp only [prqReplay_snoc]
    refine ⟨fun k hk => ?_, fun q k hq hk => hF q k hq (hasLive_remove _ _ _ _ _ hk).1⟩
    have h1 := hasLive_remove _ _ _ _ _ hk
    have hne : ¬ a.Entry.Key = k := fun h => h1.2 ⟨rfl, h.symm⟩
    rw [hC, if_neg hne]
    exact hJ k h1.1
  · simp only [hc, Bool.false_eq_true, if_false] at hQ hC
    by_cases hh : ((bs.Has a.Entry.Key).2 == none && (bs.Has a.Entry.Key).1) = true
    · simp only [hh, if_true, Option.toList] at hQ
      rw [hQ]
      simp only [prqReplay_snoc]
      refine ⟨fun k hk => ?_, fun q k hq hk => ?_⟩
      · rw [hC]
        by_cases hkey : a.Entry.Key = k
        · rw [if_pos hkey]; rfl
        · rw [if_neg hkey]
          cases hasLive_push _ _ _ _ _ hk with
          | inl h => exact hJ k h
          | inr h => exact absurd h.2.symm hkey
      · cases hasLive_push _ _ _ _ _ hk with
        | inl h => exact hF q k hq h
        | inr h => exact absurd h.1 hq
    · simp only [hh, Bool.false_eq_true, if_false, Option.toList, List.append_nil] at hQ
      rw [hQ]
      refine ⟨fun k hk => ?_, hF⟩
      rw [hC]
      by_cases hkey : a.Entry.Key = k
      · rw [if_pos hkey]; rfl
      · rw [if_neg hkey]; exact hJ k hk

theorem foldl_wantlistStep_consistent (bs : Blockstore) (p : PeerID) (s0 : List prqElem)
    (es : List bsmsg.Entry) (st : RecvState)
    (hJ : ∀ k, prqHasLiveTask (prqReplay st.queue) p k = true →
      (st.l.wantList.Contains k).isSome = true)
    (hF : ∀ q k, q ≠ p → prqHasLiveTask (prqReplay st.queue) q k = true →
      prqHasLiveTask s0 q k = true) :
    (∀ k, prqHasLiveTask (prqReplay (es.foldl (wantlistStep bs p) st).queue) p k = true →
      ((es.foldl (wantlistStep bs p) st).l.wantList.Contains k).isSome = true) ∧
    (∀ q k, q ≠ p →
      prqHasLiveTask (prqReplay (es.foldl (wantlistStep bs p) st).queue) q k = true →
      prqHasLiveTask s0 q k = true) := by
  induction es generalizing st with
  | nil => exact ⟨hJ, hF⟩
  | cons a t ih =>
    rw [List.foldl_cons]
    have h := wantlistStep_consistent bs p s0 st a hJ hF
    exact ih _ h.1 h.2

theorem findOrCreate_of_lookup (e : Engine) (p : PeerID) (l : ledger)
    (h : e.ledgerMap.lookup p = some l) : (e.findOrCreate p).1 = l := by
  rw [findOrCreate_fst, h]
  rfl

theorem MessageReceived_queue_fold (e : Engine) (bs : Blockstore) (p : PeerID)
    (m : bsmsg.BitSwapMessage) :
    (e.MessageReceived bs p m).2.peerRequestQueue =
      (m.Wantlist.foldl (wantlistStep bs p)
        ⟨if m.Full then { (e.findOrCreate p).1 with wantList := wl.New }
          else (e.findOrCreate p).1, e.peerRequestQueue, false⟩).queue := by
  simp only [Engine.MessageReceived]
  rw [(ite_signalNewWork_frame _ _).2, (findOrCreate_queue e p).1]
  rfl

theorem MessageReceived_consistent (e : Engine) (bs : Blockstore) (p : PeerID)
    (m : bsmsg.BitSwapMessage) (hm : m.Full = false) (he : e.consistent) :
    (e.MessageReceived bs p m).2.consistent := by
  have hfold := foldl_wantlistStep_consistent bs p (prqReplay e.peerRequestQueue) m.Wantlist
    ⟨(e.findOrCreate p).1, e.peerRequestQueue, false⟩
    (fun k hk => by
      obtain ⟨l, hl, hc⟩ := he p k hk
      rw [findOrCreate_of_lookup e p l hl]
      exact hc)
    (fun q k _ hk => hk)
  intro q k hk
  rw [MessageReceived_queue_fold, hm] at hk
  simp only [Bool.false_eq_true, if_false] at hk
  by_cases hq : q = p
  · subst hq
    refine ⟨_, by rw [MessageReceived_lookup, if_pos rfl], ?_⟩
    unfold recvLedger
    rw [(foldl_ReceivedBytes_frame _ _).2.1, (findOrCreate_queue e q).1, hm]
    simp only [Bool.false_eq_true, if_false]
    rw [foldl_wantlistStep_Contains]
    have := hfold.1 k hk
    rw [foldl_wantlistStep_Contains] at this
    exact this
  · obtain ⟨l, hl, hc⟩ := he q k (hfold.2 q k hq hk)
    exact ⟨l, by rw [MessageReceived_lookup, if_neg hq]; exact hl, hc⟩

theorem foldl_sentStep_consistent (p : PeerID) (s0 : List prqElem) (bl : List Block)
    (st : SentState)
    (hJ : ∀ k, prqHasLiveTask (prqReplay st.queue) p k = true →
      (st.l.wantList.Contains k).isSome = true)
    (hF : ∀ q k, q ≠ p → prqHasLiveTask (prqReplay st.queue) q k = true →
      prqHasLiveTask s0 q k = true) :
    (∀ k, prqHasLiveTask (prqReplay (bl.foldl (sentStep p) st).queue) p k = true →
      ((bl.foldl (sentStep p) st).l.wantList.Contains k).isSome = true) ∧
    (∀ q k, q ≠ p → prqHasLiveTask (prqReplay (bl.foldl (sentStep p) st).queue) q k = true →
      prqHasLiveTask s0 q k = true) := by
  induction bl generalizing st with
  | nil => exact ⟨hJ, hF⟩
  | cons a t ih =>
    rw [List.foldl_cons]
    apply ih
    · intro k hk
      have hq : (sentStep p st a).queue = st.queue ++ [PRQCall.Remove a.Key p] := rfl
      rw [hq, prqReplay_snoc] at hk
      have h1 := hasLive_remove _ _ _ _ _ hk
      have hne : ¬ k = a.Key := fun h => h1.2 ⟨rfl, h⟩
      have hc : (sentStep p st a).l.wantList.Contains k = st.l.wantList.Contains k := by
        simp only [sentStep, ledger.SentBytes, wl_Contains_Remove, if_neg hne]
      rw [hc]
      exact hJ k h1.1
    · intro q k hq hk
      have hqu : (sentStep p st a).queue = st.queue ++ [PRQCall.Remove a.Key p] := rfl
      rw [hqu, prqReplay_snoc] at hk
      exact hF q k hq (hasLive_remove _ _ _ _ _ hk).1

theorem MessageSent_consistent (e : Engine) (p : PeerID) (m : bsmsg.BitSwapMessage)
    (he : e.consistent) : (e.MessageSent p m).2.consistent := by
  have hfold := foldl_sentStep_consistent p (prqReplay e.peerRequestQueue) m.Blocks
    ⟨(e.findOrCreate p).1, e.peerRequestQueue⟩
    (fun k hk => by
      obtain ⟨l, hl, hc⟩ := he p k hk
      rw [findOrCreate_of_lookup e p l hl]
      exact hc)
    (fun q k _ hk => hk)
  have hqueue : (e.MessageSent p m).2.peerRequestQueue =
      (m.Blocks.foldl (sentStep p) ⟨(e.findOrCreate p).1, e.peerRequestQueue⟩).queue := by
    rw [MessageSent_queue, foldl_sentStep_queue]
  intro q k hk
  rw [hqueue] at hk
  by_cases hq : q = p
  · subst hq
    refine ⟨_, by rw [MessageSent_lookup, if_pos rfl], ?_⟩
    have := hfold.1 k hk
    rw [foldl_sentStep_Contains] at this ⊢
    exact this
  · obtain ⟨l, hl, hc⟩ := he q k (hfold.2 q k hq hk)
    exact ⟨l, by rw [MessageSent_lookup, if_neg hq]; exact hl, hc⟩

theorem lookup_of_mem_nodup (lm : List (PeerID × ledger)) (x : PeerID × ledger)
    (hn : (lm.map Prod.fst).Nodup) (hx : x ∈ lm) : lm.lookup x.1 = some x.2 := by
  induction lm with
  | nil => cases hx
  | cons a t ih =>
    obtain ⟨a1, a2⟩ := a
    rw [List.map_cons, List.nodup_cons] at hn
    rw [List.mem_cons] at hx
    cases hx with
    | inl h => subst h; simp [List.lookup]
    | inr h =>
      have hne : (x.1 == a1) = false := by
        simp only [beq_eq_false_iff_ne]
        intro hc
        exact hn.1 (List.mem_map.2 ⟨x, h, hc⟩)
      simp only [List.lookup, hne]
      exact ih hn.2 h

theorem mem_of_lookup (lm : List (PeerID × ledger)) (p : PeerID) (l : ledger)
    (h : lm.lookup p = some l) : (p, l) ∈ lm := by
  induction lm with
  | nil => cases h
  | cons a t ih =>
    obtain ⟨a1, a2⟩ := a
    cases hb : (p == a1) with
    | true =>
      simp only [List.lookup, hb] at h
      have h1 : p = a1 := by simpa using hb
      have h2 := Option.some.inj h
      subst h1; subst h2
      exact List.mem_cons_self _ _
    | false =>
      simp only [List.lookup, hb] at h
      exact List.mem_cons_of_mem _ (ih h)

theorem not_mem_of_lookup_none (lm : List (PeerID × ledger)) (p : PeerID)
    (h : lm.lookup p = none) : p ∉ lm.map Prod.fst := by
  induction lm with
  | nil => simp
  | cons a t ih =>
    obtain ⟨a1, a2⟩ := a
    cases hb : (p == a1) with
    | true => simp only [List.lookup, hb] at h; cases h
    | false =>
      simp only [List.lookup, hb] at h
      have hne : p ≠ a1 := by simpa using hb
      rw [List.map_cons, List.mem_cons]
      exact fun hc => hc.elim hne (ih h)

theorem foldl_push_live (key : Key) (lm : List (PeerID × ledger)) (s : List prqElem)
    (q : PeerID) (k : Key)
    (h : prqHasLiveTask ((lm.filterMap (addBlockCall key)).foldl prqStep s) q k = true) :
    prqHasLiveTask s q k = true ∨
      ∃ x ∈ lm, x.2.Partner = q ∧ ∃ en, x.2.wantList.Contains key = some en ∧ en.Key = k := by
  induction lm generalizing s with
  | nil => left; exact h
  | cons a t ih =>
    rw [List.filterMap_cons] at h
    unfold addBlockCall at h
    cases hc : a.2.wantList.Contains key with
    | none =>
      simp only [hc] at h
      cases ih s h with
      | inl h1 => left; exact h1
      | inr h1 =>
        obtain ⟨x, hx, hrest⟩ := h1
        exact Or.inr ⟨x, List.mem_cons_of_mem _ hx, hrest⟩
    | some en =>
      simp only [hc, List.foldl_cons] at h
      cases ih _ h with
      | inl h1 =>
        cases hasLive_push _ _ _ _ _ h1 with
        | inl h2 => left; exact h2
        | inr h2 =>
          exact Or.inr ⟨a, List.mem_cons_self _ _, h2.1.symm, en, hc, h2.2.symm⟩
      | inr h1 =>
        obtain ⟨x, hx, hrest⟩ := h1
        exact Or.inr ⟨x, List.mem_cons_of_mem _ hx, hrest⟩

theorem AddBlock_queue (e : Engine) (block : Block) :
    (e.AddBlock block).peerRequestQueue =
      e.peerRequestQueue ++ e.ledgerMap.filterMap (addBlockCall block.Key) := by
  unfold Engine.AddBlock Engine.addBlock
  simp only []
  rw [(ite_signalNewWork_frame _ _).2]
  exact (foldl_addBlockStep block e.ledgerMap ⟨e.peerRequestQueue, false⟩).1

theorem AddBlock_consistent (e : Engine) (block : Block) (hw : e.wellKeyed)
    (he : e.consistent) : (e.AddBlock block).consistent := by
  intro q k hk
  rw [AddBlock_queue, prqReplay_append] at hk
  rw [AddBlock_ledgerMap]
  cases foldl_push_live _ _ _ _ _ hk with
  | inl h => exact he q k h
  | inr h =>
    obtain ⟨x, hx, hp, en, hc, hkey⟩ := h
    have hl := lookup_of_mem_nodup e.ledgerMap x hw.1 hx
    rw [← hw.2 x hx, hp] at hl
    refine ⟨x.2, hl, ?_⟩
    have hfind : en.Key = block.Key := by
      unfold wl.Wantlist.Contains at hc
      have := List.find?_some hc
      simpa using this
    rw [← hkey, hfind, hc]
    rfl

theorem wellKeyed_of_ledgerMap (e1 e2 : Engine) (h : e1.ledgerMap = e2.ledgerMap)
    (hw : e2.wellKeyed) : e1.wellKeyed := by
  unfold Engine.wellKeyed at hw ⊢
  rw [h]
  exact hw

theorem findOrCreate_wellKeyed (e : Engine) (p : PeerID) (hw : e.wellKeyed) :
    (e.findOrCreate p).2.wellKeyed ∧ (e.findOrCreate p).1.Partner = p := by
  unfold Engine.findOrCreate
  cases h : e.ledgerMap.lookup p with
  | some l =>
    exact ⟨hw, hw.2 (p, l) (mem_of_lookup _ _ _ h)⟩
  | none =>
    refine ⟨⟨?_, ?_⟩, rfl⟩
    · show ((e.ledgerMap ++ [(p, newLedger p)]).map Prod.fst).Nodup
      rw [List.map_append, List.nodup_append]
      refine ⟨hw.1, by simp, ?_⟩
      intro a ha hb
      simp only [List.map_cons, List.map_nil, List.mem_singleton] at hb
      subst hb
      exact not_mem_of_lookup_none _ _ h ha
    · intro x hx
      have hx' : x ∈ e.ledgerMap ++ [(p, newLedger p)] := hx
      rw [List.mem_append, List.mem_singleton] at hx'
      cases hx' with
      | inl h1 => exact hw.2 x h1
      | inr h1 => subst h1; rfl

theorem setLedger_wellKeyed (e : Engine) (p : PeerID) (l : ledger) (hw : e.wellKeyed)
    (hl : l.Partner = p) : (e.setLedger p l).wellKeyed := by
  refine ⟨?_, ?_⟩
  · have := setLedger_peerIds e p l
    unfold Engine.peerIds at this
    rw [this]
    exact hw.1
  · intro y hy
    have hy' : y ∈ e.ledgerMap.map (fun x => if x.1 == p then (x.1, l) else x) := hy
    rw [List.mem_map] at hy'
    obtain ⟨x, hx, hxy⟩ := hy'
    by_cases hb : (x.1 == p) = true
    · rw [if_pos hb] at hxy
      subst hxy
      have : x.1 = p := by simpa using hb
      exact hl.trans this.symm
    · rw [if_neg hb] at hxy
      subst hxy
      exact hw.2 x hx

theorem foldl_sentStep_Partner (p : PeerID) (bl : List Block) (s : SentState) :
    (bl.foldl (sentStep p) s).l.Partner = s.l.Partner := by
  induction bl generalizing s with
  | nil => rfl
  | cons a t ih =>
    rw [List.foldl_cons, ih]
    rfl

theorem recvLedger_Partner (bs : Blockstore) (p : PeerID) (m : bsmsg.BitSwapMessage)
    (l : ledger) (q : List PRQCall) : (recvLedger bs p m l q).Partner = l.Partner := by
  unfold recvLedger
  rw [(foldl_ReceivedBytes_frame _ _).1, (foldl_wantlistStep_frame bs p _ _).1]
  cases m.Full <;> rfl

theorem MessageReceived_wellKeyed (e : Engine) (bs : Blockstore) (p : PeerID)
    (m : bsmsg.BitSwapMessage) (hw : e.wellKeyed) : (e.MessageReceived bs p m).2.wellKeyed := by
  have h : (e.MessageReceived bs p m).2.ledgerMap =
      ((e.findOrCreate p).2.setLedger p
        (recvLedger bs p m (e.findOrCreate p).1 (e.findOrCreate p).2.peerRequestQueue)).ledgerMap := by
    simp only [Engine.MessageReceived, recvLedger]
    rw [(ite_signalNewWork_frame _ _).1]
    rfl
  apply wellKeyed_of_ledgerMap _ _ h
  have hf := findOrCreate_wellKeyed e p hw
  exact setLedger_wellKeyed _ _ _ hf.1 ((recvLedger_Partner _ _ _ _ _).trans hf.2)

theorem MessageSent_wellKeyed (e : Engine) (p : PeerID) (m : bsmsg.BitSwapMessage)
    (hw : e.wellKeyed) : (e.MessageSent p m).2.wellKeyed := by
  have h : (e.MessageSent p m).2.ledgerMap =
      ((e.findOrCreate p).2.setLedger p (m.Blocks.foldl (sentStep p)
          ⟨(e.findOrCreate p).1, (e.findOrCreate p).2.peerRequestQueue⟩).l).ledgerMap := rfl
  apply wellKeyed_of_ledgerMap _ _ h
  have hf := findOrCreate_wellKeyed e p hw
  exact setLedger_wellKeyed _ _ _ hf.1 ((foldl_sentStep_Partner _ _ _).trans hf.2)

theorem step_consistent (e : Engine) (op : Op) (hop : op.noResync = true)
    (hw : e.wellKeyed) (he : e.consistent) :
    (e.step op).wellKeyed ∧ (e.step op).consistent := by
  cases op with
  | received bs p m =>
    have hm : m.Full = false := by simpa [Op.noResync] using hop
    exact ⟨MessageReceived_wellKeyed e bs p m hw, MessageReceived_consistent e bs p m hm he⟩
  | sent p m => exact ⟨MessageSent_wellKeyed e p m hw, MessageSent_consistent e p m he⟩
  | addBlock block =>
    exact ⟨wellKeyed_of_ledgerMap _ _ (AddBlock_ledgerMap e block) hw,
      AddBlock_consistent e block hw he⟩

theorem run_consistent (ops : List Op) (e : Engine) (hall : ops.all Op.noResync = true)
    (hw : e.wellKeyed) (he : e.consistent) :
    (e.run ops).wellKeyed ∧ (e.run ops).consistent := by
  induction ops generalizing e with
  | nil => exact ⟨hw, he⟩
  | cons op t ih =>
    rw [List.all_cons, Bool.and_eq_true] at hall
    have h := step_consistent e op hall.1 hw he
    exact ih (e.step op) hall.2 h.1 h.2

theorem NewEngine_consistent : NewEngine.wellKeyed ∧ NewEngine.consistent := by
  refine ⟨⟨List.nodup_nil, fun x hx => by cases hx⟩, ?_⟩
  intro p k hk
  simp [NewEngine, prqReplay, prqHasLiveTask] at hk

/-- Queue and ledger consistency without resync: after any sequence of `MessageReceived`
calls with messages that are not full, `MessageSent` calls and `AddBlock` calls on a new
engine, every live task of the queue is for a key that its target's wantlist contains. -/
theorem consistent_without_resync (ops : List Op) (hall : ops.all Op.noResync = true)
    (p : PeerID) (k : Key)
    (hlive : prqHasLiveTask (prqReplay (NewEngine.run ops).peerRequestQueue) p k = true) :
    ∃ w, (NewEngine.run ops).wantlistOf p = some w ∧ (w.Contains k).isSome = true := by
  obtain ⟨l, hl, hc⟩ :=
    (run_consistent ops NewEngine hall NewEngine_consistent.1 NewEngine_consistent.2).2 p k hlive
  exact ⟨l.wantList, by unfold Engine.wantlistOf; rw [hl]; rfl, hc⟩

/-! ## Claims about `MessageReceived` -/

theorem lastEntryFor_key (k : Key) (es : List bsmsg.Entry) (en : bsmsg.Entry)
    (h : lastEntryFor k es = some en) : en.Entry.Key = k := by
  unfold lastEntryFor at h
  have := List.find?_some h
  simpa using this

/-- C1: after a full message the sender's wantlist is determined by the message alone: a
key is stored iff the last wire entry that names it is not a cancel, then with that
entry's priority, and a key that no wire entry names is not stored, whatever the ledger
held before. -/
theorem C1_full_resync (e : Engine) (bs : Blockstore) (p : PeerID)
    (m : bsmsg.BitSwapMessage) (hfull : m.Full = true) :
    ∃ w, (e.MessageReceived bs p m).2.wantlistOf p = some w ∧
      ∀ k, w.Contains k =
        match lastEntryFor k m.Wantlist with
        | some en => if en.Cancel then none else some ⟨k, en.Entry.Priority⟩
        | none => none := by
  refine ⟨(recvLedger bs p m (e.findOrCreate p).1
    (e.findOrCreate p).2.peerRequestQueue).wantList, ?_, ?_⟩
  · unfold Engine.wantlistOf
    rw [MessageReceived_lookup, if_pos rfl]
    rfl
  · intro k
    rw [recvLedger_Contains]
    cases h : lastEntryFor k m.Wantlist with
    | some en =>
      have hk := lastEntryFor_key k _ _ h
      subst hk
      rfl
    | none => simp [hfull]

/-- C1 at a concrete input: the peer wanted "a"; a full message that wants "b" leaves a
wantlist that holds "b" with priority 2 and no longer holds "a". -/
theorem C1_full_resync_witness :
    msgWantB.Full = true ∧
    ∃ w, (((NewEngine.MessageReceived storeA "P1" msgWantA).2.MessageReceived
        storeA "P1" msgWantB).2.wantlistOf "P1" = some w) ∧
      w.Contains "a" = none ∧ w.Contains "b" = some ⟨"b", 2⟩ := by
  refine ⟨rfl, ?_⟩
  obtain ⟨w, hw, hk⟩ :=
    C1_full_resync (NewEngine.MessageReceived storeA "P1" msgWantA).2 storeA "P1" msgWantB rfl
  exact ⟨w, hw, by rw [hk "a"]; decide, by rw [hk "b"]; decide⟩

theorem recvCall_eq (bs : Blockstore) (p : PeerID) :
    recvCall bs p = fun entry =>
      if entry.Cancel = true then some (PRQCall.Remove entry.Entry.Key p)
      else if (bs.Has entry.Entry.Key).1 = true ∧ (bs.Has entry.Entry.Key).2 = none then
        some (PRQCall.Push entry.Entry p)
      else none := by
  funext entry
  unfold recvCall
  by_cases hc : entry.Cancel = true
  · simp only [hc, if_true]
  · simp only [hc, Bool.false_eq_true, if_false]
    cases h1 : (bs.Has entry.Entry.Key).1 <;> cases h2 : (bs.Has entry.Entry.Key).2 <;> simp

theorem MessageReceived_ledgerMap_indep (e : Engine) (bs bs' : Blockstore) (p : PeerID)
    (m : bsmsg.BitSwapMessage) :
    (e.MessageReceived bs' p m).2.ledgerMap = (e.MessageReceived bs p m).2.ledgerMap := by
  simp only [Engine.MessageReceived]
  rw [(ite_signalNewWork_frame _ _).1, (ite_signalNewWork_frame _ _).1]
  simp only [Engine.setLedger]
  rw [foldl_wantlistStep_ledger_indep bs' bs p m.Wantlist _ _ rfl]

/-- C2: `MessageReceived` returns the nil error; the queue calls it makes are, entry by
entry in wire order, a `Remove` for a cancel, a `Push` of the entry for a want exactly
when `Has` answers true without error, and nothing for a want when `Has` answers false or
fails (the later entries are still processed); the ledgers afterwards do not depend on
the blockstore, and a key whose last wire entry is a want is stored with that entry's
priority. -/
theorem C2_push_iff_has (e : Engine) (bs : Blockstore) (p : PeerID)
    (m : bsmsg.BitSwapMessage) :
    (e.MessageReceived bs p m).1 = none ∧
    (e.MessageReceived bs p m).2.peerRequestQueue =
      e.peerRequestQueue ++ m.Wantlist.filterMap (fun entry =>
        if entry.Cancel = true then some (PRQCall.Remove entry.Entry.Key p)
        else if (bs.Has entry.Entry.Key).1 = true ∧ (bs.Has entry.Entry.Key).2 = none then
          some (PRQCall.Push entry.Entry p)
        else none) ∧
    (∀ bs' : Blockstore,
      (e.MessageReceived bs' p m).2.ledgerMap = (e.MessageReceived bs p m).2.ledgerMap) ∧
    ∃ w, (e.MessageReceived bs p m).2.wantlistOf p = some w ∧
      ∀ k, w.Contains k =
        match lastEntryFor k m.Wantlist with
        | some en => if en.Cancel then none else some ⟨k, en.Entry.Priority⟩
        | none =>
          if m.Full then none
          else
            match e.wantlistOf p with
            | some w0 => w0.Contains k
            | none => none := by
  refine ⟨rfl, ?_, fun bs' => MessageReceived_ledgerMap_indep e bs bs' p m,
    (recvLedger bs p m (e.findOrCreate p).1 (e.findOrCreate p).2.peerRequestQueue).wantList,
    ?_, ?_⟩
  · rw [MessageReceived_queue, recvCall_eq]
  · unfold Engine.wantlistOf
    rw [MessageReceived_lookup, if_pos rfl]
    rfl
  · intro k
    rw [recvLedger_Contains]
    cases h : lastEntryFor k m.Wantlist with
    | some en =>
      have hk := lastEntryFor_key k _ _ h
      subst hk
      rfl
    | none =>
      simp only [findOrCreate_fst, Engine.wantlistOf]
      cases e.ledgerMap.lookup p <;> rfl

/-- The error path of `Has` at a concrete input: `Has` fails for "a" and answers true
for "c"; the call returns nil, pushes only "c", stores both keys and signals once. -/
theorem MessageReceived_has_error_example :
    (NewEngine.MessageReceived storeFailing "P1" msgWantAC).1 = none ∧
    (NewEngine.MessageReceived storeFailing "P1" msgWantAC).2.peerRequestQueue =
      [PRQCall.Push ⟨"c", 2⟩ "P1"] ∧
    ((NewEngine.MessageReceived storeFailing "P1" msgWantAC).2.wantlistOf "P1").map
      (fun w => (w.Contains "a", w.Contains "c")) = some (some ⟨"a", 1⟩, some ⟨"c", 2⟩) ∧
    (NewEngine.MessageReceived storeFailing "P1" msgWantAC).2.workSignal = 1 := by
  decide

/-- C3: a wire entry with the cancel flag contributes exactly one queue call, the
`Remove` of its key for the sender, between the calls of the entries before it and after
it, whatever the blockstore holds; and when the last wire entry that names a key is a
cancel, the sender's wantlist afterwards does not contain the key. -/
theorem C3_cancel (e : Engine) (bs : Blockstore) (p : PeerID) (full : Bool)
    (pre post : List bsmsg.Entry) (entry : bsmsg.Entry) (blocks : List Block)
    (hc : entry.Cancel = true)
    (hlast : lastEntryFor entry.Entry.Key (pre ++ entry :: post) = some entry) :
    (e.MessageReceived bs p ⟨full, pre ++ entry :: post, blocks⟩).2.peerRequestQueue =
      (e.MessageReceived bs p ⟨full, pre, blocks⟩).2.peerRequestQueue ++
        PRQCall.Remove entry.Entry.Key p ::
          ((e.MessageReceived bs p ⟨full, post, blocks⟩).2.peerRequestQueue.drop
            e.peerRequestQueue.length) ∧
    ∃ w, (e.MessageReceived bs p ⟨full, pre ++ entry :: post, blocks⟩).2.wantlistOf p = some w ∧
      w.Contains entry.Entry.Key = none := by
  refine ⟨?_, (recvLedger bs p ⟨full, pre ++ entry :: post, blocks⟩ (e.findOrCreate p).1
    (e.findOrCreate p).2.peerRequestQueue).wantList, ?_, ?_⟩
  · simp only [MessageReceived_queue, List.filterMap_append, List.filterMap_cons,
      List.drop_left, List.append_assoc]
    simp [recvCall, hc]
  · unfold Engine.wantlistOf
    rw [MessageReceived_lookup, if_pos rfl]
    rfl
  · rw [recvLedger_Contains]
    simp only [hlast, hc, if_true]

/-- C3 at a concrete input: the peer wanted "a", which the blockstore holds; a message
that cancels "a" makes the single call `Remove "a"` and leaves a wantlist without "a". -/
theorem C3_cancel_witness :
    (⟨⟨"a", 0⟩, true⟩ : bsmsg.Entry).Cancel = true ∧
    lastEntryFor "a" ([] ++ [(⟨⟨"a", 0⟩, true⟩ : bsmsg.Entry)]) = some ⟨⟨"a", 0⟩, true⟩ ∧
    ((NewEngine.MessageReceived storeA "P1" msgWantA).2.MessageReceived storeA "P1"
        ⟨false, [] ++ [⟨⟨"a", 0⟩, true⟩], []⟩).2.peerRequestQueue =
      ((NewEngine.MessageReceived storeA "P1" msgWantA).2.MessageReceived storeA "P1"
        ⟨false, [], []⟩).2.peerRequestQueue ++
        PRQCall.Remove "a" "P1" ::
          (((NewEngine.MessageReceived storeA "P1" msgWantA).2.MessageReceived storeA "P1"
            ⟨false, [], []⟩).2.peerRequestQueue.drop
            (NewEngine.MessageReceived storeA "P1" msgWantA).2.peerRequestQueue.length) ∧
    ∃ w, ((NewEngine.MessageReceived storeA "P1" msgWantA).2.MessageReceived storeA "P1"
        ⟨false, [] ++ [⟨⟨"a", 0⟩, true⟩], []⟩).2.wantlistOf "P1" = some w ∧
      w.Contains "a" = none :=
  ⟨rfl, by decide,
    C3_cancel (NewEngine.MessageReceived storeA "P1" msgWantA).2 storeA "P1" false [] []
      ⟨⟨"a", 0⟩, true⟩ [] rfl (by decide)⟩

/-! ## Claims about the queue and the ledgers -/

/-- C4 evaluated at the failing input: the blockstore holds "a"; peer P1 sends a full
message that wants "a", then a full message that wants only "b".  The second message makes
no queue call at all, so the queue still holds the live task for (P1, "a") although the
wantlist of P1 no longer contains "a"; a cancel of "a" instead does remove the task. -/
theorem C4_stale_task_after_full_resync :
    ((NewEngine.MessageReceived storeA "P1" msgWantA).2.MessageReceived
        storeA "P1" msgWantB).2.peerRequestQueue = [PRQCall.Push ⟨"a", 1⟩ "P1"] ∧
    prqHasLiveTask (prqReplay ((NewEngine.MessageReceived storeA "P1" msgWantA).2.MessageReceived
        storeA "P1" msgWantB).2.peerRequestQueue) "P1" "a" = true ∧
    (((NewEngine.MessageReceived storeA "P1" msgWantA).2.MessageReceived
        storeA "P1" msgWantB).2.wantlistOf "P1").map (fun w => w.Contains "a") = some none ∧
    prqHasLiveTask (prqReplay ((NewEngine.MessageReceived storeA "P1" msgWantA).2.MessageReceived
        storeA "P1" msgCancelA).2.peerRequestQueue) "P1" "a" = false := by
  decide

/-- C5: `AddBlock` appends to the queue calls one `Push` per ledger whose wantlist
contains the key of the block, in map order, with the entry stored in that wantlist and
the ledger's partner as target; it sends the work signal exactly when that list of pushes
is not empty: the count of buffered signals then goes from 0 to 1, or stays as it is when
the buffer is full, and it is untouched when nothing was pushed; and the ledger map is
unchanged. -/
theorem C5_addBlock (e : Engine) (block : Block) :
    e.AddBlock block =
      (if (e.ledgerMap.filterMap (fun x =>
            match x.2.wantList.Contains block.Key with
            | some entry => some (PRQCall.Push entry x.2.Partner)
            | none => none)).isEmpty
        then e
        else Engine.signalNewWork
          { e with
            peerRequestQueue := e.peerRequestQueue ++
              e.ledgerMap.filterMap (fun x =>
                match x.2.wantList.Contains block.Key with
                | some entry => some (PRQCall.Push entry x.2.Partner)
                | none => none) }) ∧
    (e.AddBlock block).ledgerMap = e.ledgerMap ∧
    (e.AddBlock block).peerRequestQueue =
      e.peerRequestQueue ++ e.ledgerMap.filterMap (fun x =>
        match x.2.wantList.Contains block.Key with
        | some entry => some (PRQCall.Push entry x.2.Partner)
        | none => none) ∧
    (e.AddBlock block).workSignal =
      (if (e.ledgerMap.filterMap (fun x =>
            match x.2.wantList.Contains block.Key with
            | some entry => some (PRQCall.Push entry x.2.Partner)
            | none => none)).isEmpty
        then e.workSignal
        else if e.workSignal < 1 then e.workSignal + 1 else e.workSignal) := by
  have hq := foldl_addBlockStep block e.ledgerMap ⟨e.peerRequestQueue, false⟩
  have hcall : (fun x : PeerID × ledger =>
      match x.2.wantList.Contains block.Key with
      | some entry => some (PRQCall.Push entry x.2.Partner)
      | none => none) = addBlockCall block.Key := rfl
  rw [hcall]
  have h1 : e.AddBlock block =
      (if (e.ledgerMap.filterMap (addBlockCall block.Key)).isEmpty then e
        else Engine.signalNewWork
          { e with
            peerRequestQueue := e.peerRequestQueue ++
              e.ledgerMap.filterMap (addBlockCall block.Key) }) := by
    unfold Engine.AddBlock Engine.addBlock
    simp only [hq.1, hq.2, Bool.false_or]
    cases h : (e.ledgerMap.filterMap (addBlockCall block.Key)).isEmpty with
    | true =>
      have h0 : e.ledgerMap.filterMap (addBlockCall block.Key) = [] := by
        simpa [List.isEmpty_iff] using h
      simp [h0]
    | false => simp
  refine ⟨h1, ?_, AddBlock_queue e block, ?_⟩
  · rw [h1]
    split
    · rfl
    · exact (signalNewWork_frame _).1
  · rw [h1]
    split
    · rfl
    · unfold Engine.signalNewWork
      split <;> rfl

/-- `AddBlock` at a concrete input: P1 and P2 both want "a" while `Has` fails for it, so
nothing is pushed when they ask; adding the block pushes one task per peer, in map order,
and signals once. -/
theorem AddBlock_two_peers_example :
    (((NewEngine.MessageReceived storeFailing "P1" msgWantA).2.MessageReceived
        storeFailing "P2" msgWantA).2.AddBlock ⟨[255], "a"⟩).peerRequestQueue =
      [PRQCall.Push ⟨"a", 1⟩ "P1", PRQCall.Push ⟨"a", 1⟩ "P2"] ∧
    (((NewEngine.MessageReceived storeFailing "P1" msgWantA).2.MessageReceived
        storeFailing "P2" msgWantA).2.AddBlock ⟨[255], "a"⟩).workSignal = 1 := by
  decide

/-- C6: `MessageSent` returns the nil error, appends to the queue calls one `Remove` of
the block's key for the peer per block of the message, in order, and leaves the peer with
a wantlist that contains none of the keys of the sent blocks and that answers for every
other key what the peer's wantlist answered before. -/
theorem C6_messageSent (e : Engine) (p : PeerID) (m : bsmsg.BitSwapMessage) :
    (e.MessageSent p m).1 = none ∧
    (e.MessageSent p m).2.peerRequestQueue =
      e.peerRequestQueue ++ m.Blocks.map (fun b => PRQCall.Remove b.Key p) ∧
    ∃ w, (e.MessageSent p m).2.wantlistOf p = some w ∧
      ∀ k, w.Contains k =
        if k ∈ m.Blocks.map Block.Key then none
        else
          match e.wantlistOf p with
          | some w0 => w0.Contains k
          | none => none := by
  refine ⟨rfl, MessageSent_queue e p m,
    (m.Blocks.foldl (sentStep p)
      ⟨(e.findOrCreate p).1, (e.findOrCreate p).2.peerRequestQueue⟩).l.wantList, ?_, ?_⟩
  · unfold Engine.wantlistOf
    rw [MessageSent_lookup, if_pos rfl]
    rfl
  · intro k
    rw [foldl_sentStep_Contains]
    by_cases hk : k ∈ m.Blocks.map Block.Key
    · rw [if_pos hk, if_pos hk]
    · rw [if_neg hk, if_neg hk]
      simp only [findOrCreate_fst, Engine.wantlistOf]
      cases e.ledgerMap.lookup p <;> rfl

/-- C7: after any sequence of `MessageReceived`, `MessageSent` and `AddBlock` calls on a
new engine, `numBytesSentTo(p)` is the total data length of the blocks of the messages
passed to `MessageSent` for `p` and `numBytesReceivedFrom(p)` the same total over the
messages passed to `MessageReceived` for `p`, both modulo 2^64; full messages, calls for
other peers and `AddBlock` contribute nothing. -/
theorem C7_byte_accounting (ops : List Op) (p : PeerID) :
    ((NewEngine.run ops).numBytesSentTo p).1 = sentTotal p ops % 2 ^ 64 ∧
    ((NewEngine.run ops).numBytesReceivedFrom p).1 = recvTotal p ops % 2 ^ 64 := by
  have hz : (0 : Nat) < 2 ^ 64 := by decide
  have h := run_accountingOf ops NewEngine p ⟨hz, hz⟩
  have h0 : NewEngine.accountingOf p = ⟨0, 0⟩ := rfl
  rw [h0] at h
  simp only [Nat.zero_add] at h
  unfold Engine.numBytesSentTo Engine.numBytesReceivedFrom
  simp only [accountingOf_findOrCreate]
  exact h

/-- C8: the list of peer ids of the ledger map after `MessageReceived`, `MessageSent`
or `findOrCreate` for `p` is the list before followed by `p` when `p` had no ledger, and
by nothing otherwise; `AddBlock` keeps the ledger map, `WantlistForPeer`, `Peers` and
`PeerDisconnected` keep the whole engine; `findOrCreate` returns the stored ledger
without changing the engine when `p` is present, and otherwise appends the one pair of
`p` and the ledger it returns, whose partner is `p`, and touches nothing else. -/
theorem C8_ledgerMap_monotone (e : Engine) (bs : Blockstore) (p : PeerID)
    (m : bsmsg.BitSwapMessage) (block : Block) :
    (e.MessageReceived bs p m).2.peerIds =
      e.peerIds ++ (if (e.ledgerMap.lookup p).isSome then [] else [p]) ∧
    (e.MessageSent p m).2.peerIds =
      e.peerIds ++ (if (e.ledgerMap.lookup p).isSome then [] else [p]) ∧
    (e.findOrCreate p).2.peerIds =
      e.peerIds ++ (if (e.ledgerMap.lookup p).isSome then [] else [p]) ∧
    (e.AddBlock block).ledgerMap = e.ledgerMap ∧
    (e.WantlistForPeer p).2 = e ∧
    e.Peers.2 = e ∧
    e.PeerDisconnected p = e ∧
    (match e.ledgerMap.lookup p with
      | some l => e.findOrCreate p = (l, e)
      | none =>
        (e.findOrCreate p).2.ledgerMap = e.ledgerMap ++ [(p, (e.findOrCreate p).1)] ∧
        (e.findOrCreate p).1.Partner = p ∧
        (e.findOrCreate p).2.peerRequestQueue = e.peerRequestQueue ∧
        (e.findOrCreate p).2.workSignal = e.workSignal) := by
  refine ⟨MessageReceived_peerIds e bs p m, MessageSent_peerIds e p m,
    findOrCreate_peerIds e p, AddBlock_ledgerMap e block, ?_, rfl, rfl, ?_⟩
  · unfold Engine.WantlistForPeer
    cases e.ledgerMap.lookup p <;> rfl
  · unfold Engine.findOrCreate
    cases h : e.ledgerMap.lookup p with
    | some l => rfl
    | none => exact ⟨rfl, rfl, rfl, rfl⟩

/-! ## Claims about the worker -/

/-- C9: when the observations of `nextEnvelope` start with any number of tasks whose
`Get` fails (and of empty pops answered by the work signal) followed by a task `t` whose
`Get` succeeds with `block`, `nextEnvelope` returns an envelope with `Peer = t.Target`
and `Block = block`; the queue calls it made are a `Pop` and one `Done` for each failed
task, in order, then the `Pop` of `t` with no `Done`; and the ledger map is unchanged. -/
theorem C9_nextEnvelope (bs : Blockstore) (pre : List PopStep) (e : Engine)
    (t : peerRequestTask) (rest : List PopStep) (block : Block)
    (hpre : pre.all (PopStep.retries bs) = true)
    (hget : bs.Get t.Entry.Key = Except.ok block) :
    ∃ env e', e.nextEnvelope bs (pre ++ PopStep.task t :: rest) = (Outcome.envelope env, e') ∧
      env.Peer = t.Target ∧ env.Block = block ∧ env.Sent = sentCallback t ∧
      e'.ledgerMap = e.ledgerMap ∧
      e'.peerRequestQueue =
        e.peerRequestQueue ++ pre.flatMap PopStep.retryCalls ++ [PRQCall.Pop (some t)] := by
  induction pre generalizing e with
  | nil =>
    refine ⟨⟨t.Target, block, sentCallback t⟩,
      { e with peerRequestQueue := e.peerRequestQueue ++ [PRQCall.Pop (some t)] }, ?_,
      rfl, rfl, rfl, rfl, ?_⟩
    · simp only [List.nil_append, Engine.nextEnvelope, hget]
    · simp
  | cons s pre ih =>
    rw [List.all_cons, Bool.and_eq_true] at hpre
    cases s with
    | emptyThenCancel => simp [PopStep.retries] at hpre
    | emptyThenSignal =>
      obtain ⟨env, e', h1, h2, h3, h4, h5, h6⟩ := ih
        { e with peerRequestQueue := e.peerRequestQueue ++ [PRQCall.Pop none],
                 workSignal := e.workSignal - 1 } hpre.2
      refine ⟨env, e', ?_, h2, h3, h4, h5, ?_⟩
      · simp only [List.cons_append, Engine.nextEnvelope]
        exact h1
      · rw [h6]
        simp [PopStep.retryCalls, List.flatMap_cons]
    | task u =>
      have hu : ∃ err, bs.Get u.Entry.Key = Except.error err := by
        have := hpre.1
        unfold PopStep.retries at this
        cases hg : bs.Get u.Entry.Key with
        | error err => exact ⟨err, rfl⟩
        | ok b => simp [hg] at this
      obtain ⟨err, hu⟩ := hu
      obtain ⟨env, e', h1, h2, h3, h4, h5, h6⟩ := ih
        { e with peerRequestQueue :=
          (e.peerRequestQueue ++ [PRQCall.Pop (some u)]) ++ [PRQCall.Done u] } hpre.2
      refine ⟨env, e', ?_, h2, h3, h4, h5, ?_⟩
      · simp only [List.cons_append, Engine.nextEnvelope, hu]
        exact h1
      · rw [h6]
        simp [PopStep.retryCalls, List.flatMap_cons]

/-- C9 at a concrete input: the worker pops a task for "z", which the blockstore does not
hold, then a task for "a", which it holds; the envelope goes to P1 with the block of "a",
the task for "z" gets one `Done`, and the ledger map is unchanged. -/
theorem C9_nextEnvelope_witness :
    [PopStep.task taskZ].all (PopStep.retries storeA) = true ∧
    storeA.Get taskA.Entry.Key = Except.ok ⟨[1], "a"⟩ ∧
    ∃ env e', NewEngine.nextEnvelope storeA ([PopStep.task taskZ] ++ PopStep.task taskA :: []) =
        (Outcome.envelope env, e') ∧
      env.Peer = taskA.Target ∧ env.Block = ⟨[1], "a"⟩ ∧ env.Sent = sentCallback taskA ∧
      e'.ledgerMap = NewEngine.ledgerMap ∧
      e'.peerRequestQueue =
        NewEngine.peerRequestQueue ++ [PopStep.task taskZ].flatMap PopStep.retryCalls ++
          [PRQCall.Pop (some taskA)] :=
  ⟨by decide, rfl,
    C9_nextEnvelope storeA [PopStep.task taskZ] NewEngine taskA [] ⟨[1], "a"⟩ (by decide) rfl⟩

/-- C10 refuted at a concrete input: the worker pops a task for (P1, "a") whose trash
flag is set while the blockstore holds "a"; `nextEnvelope` returns an envelope for P1
carrying that block and makes no `Done` call on the task. -/
theorem C10_trashed_task_dispatched :
    ∃ env e', NewEngine.nextEnvelope storeA [PopStep.task trashedTaskA] =
        (Outcome.envelope env, e') ∧
      trashedTaskA.trash = true ∧ env.Peer = "P1" ∧ env.Block = ⟨[1], "a"⟩ ∧
      e'.peerRequestQueue = [PRQCall.Pop (some trashedTaskA)] :=
  ⟨_, _, rfl, rfl, rfl, rfl, rfl⟩

/-- C10 as amended: `nextEnvelope` does not look at the trash flag.  For a popped task
with any entry, target and trash flag, it returns an envelope for the target with the
block when `Get` succeeds, making no `Done` call, and when `Get` fails it calls `Done` on
the task and goes on with the next observation. -/
theorem C10_nextEnvelope_ignores_trash (bs : Blockstore) (e : Engine) (entry : wl.Entry)
    (target : PeerID) (trash : Bool) (rest : List PopStep) :
    match bs.Get entry.Key with
    | Except.ok block =>
      ∃ env, e.nextEnvelope bs (PopStep.task ⟨entry, target, trash⟩ :: rest) =
          (Outcome.envelope env,
            { e with peerRequestQueue :=
              e.peerRequestQueue ++ [PRQCall.Pop (some ⟨entry, target, trash⟩)] }) ∧
        env.Peer = target ∧ env.Block = block
    | Except.error _ =>
      e.nextEnvelope bs (PopStep.task ⟨entry, target, trash⟩ :: rest) =
        Engine.nextEnvelope bs
          { e with peerRequestQueue :=
            e.peerRequestQueue ++ [PRQCall.Pop (some ⟨entry, target, trash⟩),
              PRQCall.Done ⟨entry, target, trash⟩] } rest := by
  cases h : bs.Get entry.Key with
  | ok block =>
    refine ⟨⟨target, block, sentCallback ⟨entry, target, trash⟩⟩, ?_, rfl, rfl⟩
    simp only [Engine.nextEnvelope, h]
  | error err =>
    simp only [Engine.nextEnvelope, h, List.append_assoc, List.singleton_append]

end Bitswap

/-! # Claims about the DHT wire messages -/

namespace dht_pb

theorem toInt32_of_range (x : Int) (h1 : -2 ^ 31 ≤ x) (h2 : x < 2 ^ 31) : toInt32 x = x := by
  unfold toInt32
  omega

/-- What the getter reports after the setter, for a level that fits in `int32` and is not
negative: the level minus one, and 0 for the level 0. -/
theorem SetClusterLevel_GetClusterLevel (m : Message) (level : Int) (h0 : 0 ≤ level)
    (h1 : level < 2 ^ 31) :
    (m.SetClusterLevel level).GetClusterLevel = if level = 0 then 0 else level - 1 := by
  unfold Message.GetClusterLevel Message.SetClusterLevel Message.GetClusterLevelRaw
  simp only []
  rw [toInt32_of_range level (by omega) h1, toInt32_of_range (level - 1) (by omega) (by omega)]
  by_cases h : level = 0
  · subst h; rfl
  · rw [if_neg h, if_neg (by omega)]

/-- C11 evaluated at the failing input: a message built by `NewMessage` with level 1
reports level 0, and with level 5 reports level 4, as does any message after
`SetClusterLevel(5)`: the setter stores the level as it is and only the getter subtracts
one.  Level 0 and an unset raw level do report 0. -/
theorem C11_cluster_level_off_by_one :
    (NewMessage 0 "k" 1).GetClusterLevel = 0 ∧
    (NewMessage 0 "k" 5).GetClusterLevel = 4 ∧
    (Message.SetClusterLevel ⟨none, none, none⟩ 5).GetClusterLevel = 4 ∧
    (Message.SetClusterLevel ⟨none, none, none⟩ 5).GetClusterLevelRaw = 5 ∧
    (NewMessage 0 "k" 0).GetClusterLevel = 0 ∧
    (⟨none, none, none⟩ : Message).GetClusterLevel = 0 := by
  decide

theorem foldl_addressesStep (dec : Decoder) (l : List (List UInt8)) (n : Nat)
    (pre : List (Option Multiaddr)) (hpre : pre.length = n) :
    (List.enumFrom n l).foldl (addressesStep dec) (pre ++ List.replicate l.length none) =
      pre ++ l.map (fun addr => (dec addr).1) := by
  induction l generalizing n pre with
  | nil => simp
  | cons a t ih =>
    have hstep : addressesStep dec (pre ++ List.replicate (a :: t).length none) (n, a) =
        (pre ++ [(dec a).1]) ++ List.replicate t.length none := by
      unfold addressesStep
      simp only [ite_self, List.length_cons, List.replicate_succ]
      rw [← hpre, List.set_append_right _ _ (Nat.le_refl _)]
      simp
    rw [List.enumFrom_cons, List.foldl_cons, hstep, ih (n + 1) (pre ++ [(dec a).1]) (by simp [hpre])]
    simp

/-- The slice returned by `Addresses` has one element per address of the peer, the value
that the decoder returned for it, whether or not the decoder failed. -/
theorem Addresses_eq_map (dec : Decoder) (mp : Message_Peer) :
    Message_Peer.Addresses dec (some mp) = mp.Addrs.map (fun addr => (dec addr).1) := by
  unfold Message_Peer.Addresses List.enum
  have := foldl_addressesStep dec mp.Addrs 0 [] rfl
  simpa using this

theorem PBPeersToPeerInfos_eq_map (dec : Decoder) (pbps : List (Option Message_Peer)) :
    PBPeersToPeerInfos dec pbps = pbps.map (PBPeerToPeerInfo dec) := by
  unfold PBPeersToPeerInfos
  have h : ∀ (l : List (Option Message_Peer)) (acc : List PeerInfo),
      l.foldl (fun peers pbp => peers ++ [PBPeerToPeerInfo dec pbp]) acc =
        acc ++ l.map (PBPeerToPeerInfo dec) := by
    intro l
    induction l with
    | nil => simp
    | cons a t ih => intro acc; rw [List.foldl_cons, ih]; simp
  simpa using h pbps []

/-- C12 evaluated at the failing input: the peer has two addresses and the decoder fails
on the second; the result has one `PeerInfo` with the peer's id, but its `Addrs` has two
elements, the decoded first address and a nil standing for the address that failed. -/
theorem C12_invalid_address_kept_as_nil :
    (sampleDecoder [255]).2 = some "invalid multiaddr" ∧
    PBPeersToPeerInfos sampleDecoder [some samplePeer] =
      [⟨"QmPeer", [some ⟨[4, 127, 0, 0, 1]⟩, none]⟩] := by
  decide

end dht_pb

/-! # Claims about the work signal and per-peer isolation -/

namespace Bitswap

theorem signalNewWork_idem (e : Engine) : e.signalNewWork.signalNewWork = e.signalNewWork := by
  unfold Engine.signalNewWork
  by_cases h : e.workSignal < 1
  · have h0 : e.workSignal = 0 := by omega
    simp [h0]
  · simp [h]

theorem signalNewWork_of_cap (e : Engine) (hcap : e.workSignal ≤ 1) :
    e.signalNewWork = { e with workSignal := 1 } := by
  unfold Engine.signalNewWork
  by_cases h : e.workSignal < 1
  · have h0 : e.workSignal = 0 := by omega
    simp [h0]
  · have h1 : e.workSignal = 1 := by omega
    rw [if_neg h]
    cases e
    simp only at h1
    subst h1
    rfl

theorem iterate_signalNewWork (e : Engine) (n : Nat) :
    Nat.iterate Engine.signalNewWork (n + 1) e = e.signalNewWork := by
  induction n generalizing e with
  | zero => rfl
  | succ k ih =>
    rw [Function.iterate_succ_apply, ih, signalNewWork_idem]

theorem any_isPush_recvCall (bs : Blockstore) (p : PeerID) (es : List bsmsg.Entry) :
    (es.filterMap (recvCall bs p)).any PRQCall.isPush = es.any (recvPushes bs) := by
  induction es with
  | nil => rfl
  | cons a t ih =>
    rw [List.filterMap_cons, List.any_cons, ← ih]
    unfold recvCall recvPushes
    by_cases hc : a.Cancel = true
    · simp [hc, PRQCall.isPush]
    · by_cases hh : ((bs.Has a.Entry.Key).2 == none && (bs.Has a.Entry.Key).1) = true
      · simp only [hc, hh, Bool.false_eq_true, if_false, if_true, List.any_cons, PRQCall.isPush]
        simp
      · simp only [hc, hh, Bool.false_eq_true, if_false]
        simp [hh]

/-- C13: on a channel that holds at most one signal, `signalNewWork` leaves exactly one
signal buffered, whether zero or one was buffered before, and signalling again changes
nothing; so after any number `n ≥ 1` of signals the worker's receive is ready once, takes
the signal, and a second receive is not ready.  `MessageReceived` applies `signalNewWork`
to the engine it built exactly when one of the queue calls it made is a `Push`. -/
theorem C13_work_signal (e : Engine) (n : Nat) (bs : Blockstore) (p : PeerID)
    (m : bsmsg.BitSwapMessage) (hcap : e.workSignal ≤ 1) (hn : 1 ≤ n) :
    e.signalNewWork.workSignal = 1 ∧
    e.signalNewWork.signalNewWork = e.signalNewWork ∧
    Nat.iterate Engine.signalNewWork n e = e.signalNewWork ∧
    (Nat.iterate Engine.signalNewWork n e).receiveWorkSignal = some { e with workSignal := 0 } ∧
    Engine.receiveWorkSignal { e with workSignal := 0 } = none ∧
    ∃ X : Engine, X.workSignal = e.workSignal ∧
      (e.MessageReceived bs p m).2 =
        if ((e.MessageReceived bs p m).2.peerRequestQueue.drop
            e.peerRequestQueue.length).any PRQCall.isPush = true
        then X.signalNewWork else X := by
  have hit : Nat.iterate Engine.signalNewWork n e = e.signalNewWork := by
    obtain ⟨k, rfl⟩ : ∃ k, n = k + 1 := ⟨n - 1, by omega⟩
    exact iterate_signalNewWork e k
  refine ⟨?_, signalNewWork_idem e, hit, ?_, rfl, ?_⟩
  · rw [signalNewWork_of_cap e hcap]
  · rw [hit, signalNewWork_of_cap e hcap]
    rfl
  · have hq := MessageReceived_queue e bs p m
    rw [hq, List.drop_left, any_isPush_recvCall]
    have hnw := (foldl_wantlistStep_queue bs p m.Wantlist
      ⟨if m.Full then { (e.findOrCreate p).1 with wantList := wl.New }
        else (e.findOrCreate p).1, (e.findOrCreate p).2.peerRequestQueue, false⟩).2
    rw [Bool.false_or] at hnw
    refine ⟨Engine.setLedger
      { (e.findOrCreate p).2 with
        peerRequestQueue := (m.Wantlist.foldl (wantlistStep bs p)
          ⟨if m.Full then { (e.findOrCreate p).1 with wantList := wl.New }
            else (e.findOrCreate p).1, (e.findOrCreate p).2.peerRequestQueue, false⟩).queue }
      p (recvLedger bs p m (e.findOrCreate p).1 (e.findOrCreate p).2.peerRequestQueue),
      (findOrCreate_queue e p).2, ?_⟩
    rw [← hnw]
    rfl

/-- C13 at a concrete input: a new engine is signalled three times; one signal is
buffered, the receive takes it, and the next receive is not ready. -/
theorem C13_work_signal_witness :
    NewEngine.workSignal ≤ 1 ∧ 1 ≤ 3 ∧
    NewEngine.signalNewWork.workSignal = 1 ∧
    NewEngine.signalNewWork.signalNewWork = NewEngine.signalNewWork ∧
    Nat.iterate Engine.signalNewWork 3 NewEngine = NewEngine.signalNewWork ∧
    (Nat.iterate Engine.signalNewWork 3 NewEngine).receiveWorkSignal =
      some { NewEngine with workSignal := 0 } ∧
    Engine.receiveWorkSignal { NewEngine with workSignal := 0 } = none ∧
    ∃ X : Engine, X.workSignal = NewEngine.workSignal ∧
      (NewEngine.MessageReceived storeA "P1" msgWantA).2 =
        if ((NewEngine.MessageReceived storeA "P1" msgWantA).2.peerRequestQueue.drop
            NewEngine.peerRequestQueue.length).any PRQCall.isPush = true
        then X.signalNewWork else X :=
  ⟨by decide, by decide,
    C13_work_signal NewEngine 3 storeA "P1" msgWantA (by decide) (by decide)⟩

theorem Peers_eq_map (e : Engine) : e.Peers.1 = e.ledgerMap.map (fun x => x.2.Partner) := by
  unfold Engine.Peers
  have h : ∀ (l : List (PeerID × ledger)) (acc : List PeerID),
      l.foldl (fun response x => response ++ [x.2.Partner]) acc =
        acc ++ l.map (fun x => x.2.Partner) := by
    intro l
    induction l with
    | nil => simp
    | cons a t ih => intro acc; rw [List.foldl_cons, ih]; simp
  simpa using h e.ledgerMap []

theorem setLedger_of_new (e : Engine) (p : PeerID) (l : ledger)
    (hnone : e.ledgerMap.lookup p = none) :
    ((e.findOrCreate p).2.setLedger p l).ledgerMap = e.ledgerMap ++ [(p, l)] := by
  have hfc : (e.findOrCreate p).2.ledgerMap = e.ledgerMap ++ [(p, newLedger p)] := by
    unfold Engine.findOrCreate
    rw [hnone]
  unfold Engine.setLedger
  simp only [hfc, List.map_append, List.map_cons, List.map_nil, beq_self_eq_true, if_true]
  congr 1
  have hmem := not_mem_of_lookup_none e.ledgerMap p hnone
  have hid : ∀ x ∈ e.ledgerMap, (if (x.1 == p) = true then (x.1, l) else x) = x := by
    intro x hx
    have hne : ¬ (x.1 == p) = true := by
      intro hb
      have hxp : x.1 = p := by simpa using hb
      exact hmem (List.mem_map.2 ⟨x, hx, hxp⟩)
    rw [if_neg hne]
  rw [List.map_congr_left hid, List.map_id']

theorem MessageReceived_Peers_of_new (e : Engine) (bs : Blockstore) (p : PeerID)
    (m : bsmsg.BitSwapMessage) (hnone : e.ledgerMap.lookup p = none) :
    (e.MessageReceived bs p m).2.Peers.1 = e.Peers.1 ++ [p] := by
  have h : (e.MessageReceived bs p m).2.ledgerMap =
      ((e.findOrCreate p).2.setLedger p
        (recvLedger bs p m (e.findOrCreate p).1 (e.findOrCreate p).2.peerRequestQueue)).ledgerMap := by
    simp only [Engine.MessageReceived, recvLedger]
    rw [(ite_signalNewWork_frame _ _).1]
    rfl
  rw [Peers_eq_map, Peers_eq_map, h, setLedger_of_new e p _ hnone, List.map_append]
  simp only [List.map_cons, List.map_nil, recvLedger_Partner, findOrCreate_fst, hnone]
  rfl

theorem MessageSent_Peers_of_new (e : Engine) (p : PeerID) (m : bsmsg.BitSwapMessage)
    (hnone : e.ledgerMap.lookup p = none) :
    (e.MessageSent p m).2.Peers.1 = e.Peers.1 ++ [p] := by
  have h : (e.MessageSent p m).2.ledgerMap =
      ((e.findOrCreate p).2.setLedger p (m.Blocks.foldl (sentStep p)
          ⟨(e.findOrCreate p).1, (e.findOrCreate p).2.peerRequestQueue⟩).l).ledgerMap := rfl
  rw [Peers_eq_map, Peers_eq_map, h, setLedger_of_new e p _ hnone, List.map_append]
  simp only [List.map_cons, List.map_nil, foldl_sentStep_Partner, findOrCreate_fst, hnone]
  rfl

/-- C14: `MessageReceived(p, m)` and `MessageSent(p, m)` leave the ledger stored for every
other peer `q` as it was (wantlist and both byte counters), add to the key list of the
ledger map only `p`, and only when `p` had no ledger; and when `p` had none, `Peers()`
afterwards reports the peers it reported before followed by `p`, whatever the message
holds. -/
theorem C14_per_peer_isolation (e : Engine) (bs : Blockstore) (p q : PeerID)
    (m : bsmsg.BitSwapMessage) (hq : q ≠ p) :
    (e.MessageReceived bs p m).2.ledgerMap.lookup q = e.ledgerMap.lookup q ∧
    (e.MessageSent p m).2.ledgerMap.lookup q = e.ledgerMap.lookup q ∧
    (e.MessageReceived bs p m).2.peerIds =
      e.peerIds ++ (if (e.ledgerMap.lookup p).isSome then [] else [p]) ∧
    (e.MessageSent p m).2.peerIds =
      e.peerIds ++ (if (e.ledgerMap.lookup p).isSome then [] else [p]) ∧
    (e.ledgerMap.lookup p = none →
      (e.MessageReceived bs p m).2.Peers.1 = e.Peers.1 ++ [p] ∧
      (e.MessageSent p m).2.Peers.1 = e.Peers.1 ++ [p]) := by
  refine ⟨?_, ?_, MessageReceived_peerIds e bs p m, MessageSent_peerIds e p m,
    fun hnone => ⟨MessageReceived_Peers_of_new e bs p m hnone,
      MessageSent_Peers_of_new e p m hnone⟩⟩
  · rw [MessageReceived_lookup, if_neg hq]
  · rw [MessageSent_lookup, if_neg hq]

/-- C14 at a concrete input: P2 has a ledger that wants "a" and P1 has none; an empty
message received from P1, or sent to P1, leaves the ledger of P2 as it was and makes
`Peers()` report P2 and then P1. -/
theorem C14_per_peer_isolation_witness :
    ("P2" : PeerID) ≠ "P1" ∧
    (NewEngine.MessageReceived storeA "P2" msgWantA).2.ledgerMap.lookup "P1" = none ∧
    (((NewEngine.MessageReceived storeA "P2" msgWantA).2.MessageReceived storeA "P1"
        msgEmpty).2.ledgerMap.lookup "P2" =
      (NewEngine.MessageReceived storeA "P2" msgWantA).2.ledgerMap.lookup "P2") ∧
    (((NewEngine.MessageReceived storeA "P2" msgWantA).2.MessageSent "P1"
        msgEmpty).2.ledgerMap.lookup "P2" =
      (NewEngine.MessageReceived storeA "P2" msgWantA).2.ledgerMap.lookup "P2") ∧
    ((NewEngine.MessageReceived storeA "P2" msgWantA).2.MessageReceived storeA "P1"
        msgEmpty).2.Peers.1 = ["P2", "P1"] ∧
    ((NewEngine.MessageReceived storeA "P2" msgWantA).2.MessageSent "P1"
        msgEmpty).2.Peers.1 = ["P2", "P1"] := by
  have h := C14_per_peer_isolation (NewEngine.MessageReceived storeA "P2" msgWantA).2 storeA
    "P1" "P2" msgEmpty (by decide)
  have hp := h.2.2.2.2 (by decide)
  exact ⟨by decide, by decide, h.1, h.2.1, hp.1, hp.2⟩

end Bitswap
